import Mathlib

/-!
Volume rendering by ray marching (`volume_rendering_sphere.c`).

A shallow embedding of the C program and the properties of its sampler, its
ray marcher, its sphere initialiser and its image loop.

Modelling conventions.

* C `float`/`double` values are elements of an arbitrary linearly ordered field
  `α` with a floor function (exact arithmetic, no rounding, no NaN, no
  infinities).  Instantiating `α := ℚ` gives executable definitions;
  instantiating `α := ℝ` gives the exact real semantics.
* C `int` values are `Int` (no overflow: the conversions the program performs
  are assumed to fit).
* The global `float volume[128][128][128]` is a function from three natural
  indices to `α`; it is only ever read at indices below `VOLUME_SIZE`.
* The image buffer `unsigned char *image` is a function from byte offsets to
  byte values.
* The C library `sqrt` that `render_image` divides by is a parameter
  `sqrt : α → α` of the image loop; `Real.sqrt` is the exact one.  The square
  root inside `euclidian_distance` is only used truncated to `int`, which is
  computed exactly by the integer square root.
-/

namespace VolumeRendering

/-! ## Constants -/

/-- Source constant: `#define VOLUME_SIZE 128`. -/
def VOLUME_SIZE : Nat := 128

/-- Source constant: `#define IMAGE_WIDTH 512`. -/
def IMAGE_WIDTH : Nat := 512

/-- Source constant: `#define IMAGE_HEIGHT 512`. -/
def IMAGE_HEIGHT : Nat := 512

/-- Source constant: `#define MAX_STEPS 256`. -/
def MAX_STEPS : Nat := 256

section Defs

variable {α : Type} [LinearOrderedField α] [FloorRing α]

/-- Source constant: `#define STEP_SIZE 0.01`. -/
def STEP_SIZE : α := 1 / 100

/-- The grid `float volume[VOLUME_SIZE][VOLUME_SIZE][VOLUME_SIZE]`. -/
abbrev Volume (α : Type) := Nat → Nat → Nat → α

/-- Conversion of a floating value to `int` by a C cast: the fractional part is
discarded, i.e. the value is rounded toward zero. -/
def c_trunc (q : α) : Int :=
  if 0 ≤ q then ⌊q⌋ else ⌈q⌉

/-- Source function `sample_volume`: the three coordinates are scaled by
`VOLUME_SIZE` and cast to `int`; an index outside the grid gives `0`, otherwise
the stored cell is returned. -/
def sample_volume (volume : Volume α) (x y z : α) : α :=
  let ix : Int := c_trunc (x * (VOLUME_SIZE : α))
  let iy : Int := c_trunc (y * (VOLUME_SIZE : α))
  let iz : Int := c_trunc (z * (VOLUME_SIZE : α))
  if ix < 0 ∨ iy < 0 ∨ iz < 0 ∨ ix ≥ (VOLUME_SIZE : Int) ∨ iy ≥ (VOLUME_SIZE : Int)
      ∨ iz ≥ (VOLUME_SIZE : Int) then
    0
  else
    volume ix.toNat iy.toNat iz.toNat

/-- Source type `struct Point { float x, y, z; }`. -/
structure Point (α : Type) where
  x : α
  y : α
  z : α

/-- Source function `euclidian_distance`, whose return type is `int`: the square
root of the sum of the squared coordinate differences, converted to `int` by the
`return`.  The sum `s` is non-negative and the truncation of its exact square
root is the integer square root of `⌊s⌋` (see `trunc_sqrt_eq`). -/
def euclidian_distance (x y : Point α) : Int :=
  let s : α := (x.x - y.x) ^ 2 + (x.y - y.y) ^ 2 + (x.z - y.z) ^ 2
  Int.ofNat (Nat.sqrt (Int.toNat ⌊s⌋))

/-- The break condition of the marching loop:
`pos_x < 0 || pos_x >= VOLUME_SIZE || pos_y < 0 || ... || pos_z >= VOLUME_SIZE`. -/
def out_of_bounds (pos_x pos_y pos_z : α) : Prop :=
  pos_x < 0 ∨ pos_x ≥ (VOLUME_SIZE : α) ∨ pos_y < 0 ∨ pos_y ≥ (VOLUME_SIZE : α)
    ∨ pos_z < 0 ∨ pos_z ≥ (VOLUME_SIZE : α)

instance (pos_x pos_y pos_z : α) : Decidable (out_of_bounds pos_x pos_y pos_z) := by
  unfold out_of_bounds
  infer_instance

/-- The locals of `ray_march`: the marching position, the accumulated density
and `step`, the number of loop bodies executed so far. -/
structure MarchState (α : Type) where
  pos_x : α
  pos_y : α
  pos_z : α
  density : α
  step : Nat

/-- The `for` loop of `ray_march`, run for at most `n` further iterations: each
iteration samples at the current position, advances the position and leaves the
loop (`break`) when the advanced position is out of bounds. -/
def march_loop (volume : Volume α) (dir_x dir_y dir_z : α) : Nat → MarchState α → MarchState α
  | 0, s => s
  | n + 1, s =>
    let density := s.density + sample_volume volume s.pos_x s.pos_y s.pos_z * STEP_SIZE
    let pos_x := s.pos_x + dir_x * STEP_SIZE
    let pos_y := s.pos_y + dir_y * STEP_SIZE
    let pos_z := s.pos_z + dir_z * STEP_SIZE
    let s1 : MarchState α := ⟨pos_x, pos_y, pos_z, density, s.step + 1⟩
    if out_of_bounds pos_x pos_y pos_z then s1
    else march_loop volume dir_x dir_y dir_z n s1

/-- The state in which `ray_march` leaves its loop. -/
def march_final (volume : Volume α) (start_x start_y start_z dir_x dir_y dir_z : α) :
    MarchState α :=
  march_loop volume dir_x dir_y dir_z MAX_STEPS ⟨start_x, start_y, start_z, 0, 0⟩

/-- Source function `ray_march`: the accumulated density, clamped by
`fmin(density, 1.0f)`. -/
def ray_march (volume : Volume α) (start_x start_y start_z dir_x dir_y dir_z : α) : α :=
  min (march_final volume start_x start_y start_z dir_x dir_y dir_z).density 1

/-- The assignment `volume[x][y][z] = a`. -/
def set_cell (volume : Volume α) (x y z : Nat) (a : α) : Volume α :=
  fun i j k => if i = x ∧ j = y ∧ k = z then a else volume i j k

/-- The body of the innermost loop of `initialize_volume`. -/
def initialize_cell (volume : Volume α) (x y z : Nat) : Volume α :=
  let center_x : Int := (VOLUME_SIZE : Int) / 2
  let center_y : Int := (VOLUME_SIZE : Int) / 2
  let center_z : Int := (VOLUME_SIZE : Int) / 2
  let radius : Int := (VOLUME_SIZE : Int) / 4
  let p1 : Point α := ⟨(x : α), (y : α), (z : α)⟩
  let p2 : Point α := ⟨(center_x : α), (center_y : α), (center_z : α)⟩
  let dist : α := ((euclidian_distance p1 p2 : Int) : α)
  set_cell volume x y z (if dist ≤ (radius : α) then 1 else 0)

/-- Source function `initialize_volume`: three nested loops over the grid, run
on the previous contents of the global array. -/
def initialize_volume (volume : Volume α) : Volume α :=
  (List.range VOLUME_SIZE).foldl (fun v x =>
    (List.range VOLUME_SIZE).foldl (fun v y =>
      (List.range VOLUME_SIZE).foldl (fun v z => initialize_cell v x y z) v) v) volume

/-- The global array before `initialize_volume` runs: static storage, all zero. -/
def zero_volume : Volume α := fun _ _ _ => 0

/-- Conversion of a floating value to `unsigned char` by a C cast: truncation,
reduced modulo 256. -/
def c_uchar (q : α) : Nat :=
  Int.toNat (c_trunc q % 256)

/-- The image buffer: byte offset to byte value. -/
abbrev Image := Nat → Nat

/-- The assignment `image[index] = value`. -/
def store (image : Image) (index value : Nat) : Image :=
  fun i => if i = index then value else image i

/-- The ray direction `render_image` computes for pixel `(x, y)`; `sqrt` is the
square root function of the C library. -/
def pixel_direction (sqrt : α → α) (x y : Nat) : α × α × α :=
  let nx : α := (x : α) / (IMAGE_WIDTH : α)
  let ny : α := (y : α) / (IMAGE_HEIGHT : α)
  let ray_dir_x : α := nx - 1 / 2
  let ray_dir_y : α := ny - 1 / 2
  let ray_dir_z : α := 1
  let length : α := sqrt (ray_dir_x * ray_dir_x + ray_dir_y * ray_dir_y + ray_dir_z * ray_dir_z)
  (ray_dir_x / length, ray_dir_y / length, ray_dir_z / length)

/-- The value `density` that `render_image` computes for pixel `(x, y)`. -/
def pixel_density (sqrt : α → α) (volume : Volume α) (x y : Nat) : α :=
  let d := pixel_direction sqrt x y
  ray_march volume (1 / 2) (3 / 10) 0 d.1 d.2.1 d.2.2

/-- The value `color` that `render_image` computes for pixel `(x, y)`. -/
def pixel_color (sqrt : α → α) (volume : Volume α) (x y : Nat) : Nat :=
  c_uchar (pixel_density sqrt volume x y * 255)

/-- The stores the body of the inner loop of `render_image` performs for pixel
`(x, y)`, in program order, as (offset, value) pairs. -/
def pixel_writes (sqrt : α → α) (volume : Volume α) (y x : Nat) : List (Nat × Nat) :=
  let color := pixel_color sqrt volume x y
  let index := (y * IMAGE_WIDTH + x) * 3
  [(index, color), (index + 1, color), (index + 2, color)]

/-- Performing a sequence of stores on the buffer, first to last. -/
def apply_writes (image : Image) (ws : List (Nat × Nat)) : Image :=
  ws.foldl (fun img w => store img w.1 w.2) image

/-- The body of the inner loop of `render_image` for pixel `(x, y)`. -/
def render_pixel (sqrt : α → α) (volume : Volume α) (image : Image) (y x : Nat) : Image :=
  apply_writes image (pixel_writes sqrt volume y x)

/-- Source function `render_image`: the two nested loops over the pixels. -/
def render_image (sqrt : α → α) (volume : Volume α) (image : Image) : Image :=
  (List.range IMAGE_HEIGHT).foldl (fun img y =>
    (List.range IMAGE_WIDTH).foldl (fun img x => render_pixel sqrt volume img y x) img) image

/-- The stores `render_image` performs, in program order. -/
def render_writes (sqrt : α → α) (volume : Volume α) : List (Nat × Nat) :=
  (List.range IMAGE_HEIGHT).flatMap (fun y =>
    (List.range IMAGE_WIDTH).flatMap (fun x => pixel_writes sqrt volume y x))

/-- The marching position on one axis after `k` advances from `start` (exact
arithmetic: `k` additions of `dir * STEP_SIZE`). -/
def ray_point (start dir : α) (k : Nat) : α :=
  start + (k : α) * (dir * STEP_SIZE)

/-- The sum of the first `m` contributions `sample_volume(...) * STEP_SIZE` along
a ray. -/
def march_sum (volume : Volume α) (start_x start_y start_z dir_x dir_y dir_z : α) (m : Nat) : α :=
  (Finset.range m).sum (fun k =>
    sample_volume volume (ray_point start_x dir_x k) (ray_point start_y dir_y k)
      (ray_point start_z dir_z k) * STEP_SIZE)

/-- The sampler reads a cell at coordinate `c` on one axis: the truncated index of
`c * VOLUME_SIZE` is inside `[0, VOLUME_SIZE)`. -/
def index_in_grid (c : α) : Prop :=
  0 ≤ c_trunc (c * (VOLUME_SIZE : α)) ∧ c_trunc (c * (VOLUME_SIZE : α)) < (VOLUME_SIZE : Int)

instance (c : α) : Decidable (index_in_grid c) := by
  unfold index_in_grid
  infer_instance

/-- The field whose cells all hold 1.0. -/
def ones_volume : Volume α := fun _ _ _ => 1

/-- The value the body of the innermost loop of `initialize_volume` assigns to
cell `(x, y, z)`: `(dist <= radius) ? 1.0f : 0.0f`. -/
def sphere_value (x y z : Nat) : α :=
  let p1 : Point α := ⟨(x : α), (y : α), (z : α)⟩
  let p2 : Point α := ⟨(((VOLUME_SIZE : Int) / 2 : Int) : α), (((VOLUME_SIZE : Int) / 2 : Int) : α),
    (((VOLUME_SIZE : Int) / 2 : Int) : α)⟩
  if ((euclidian_distance p1 p2 : Int) : α) ≤ (((VOLUME_SIZE : Int) / 4 : Int) : α) then 1 else 0

/-- The squared distance, in cells, of cell `(x, y, z)` from the grid centre
`(64, 64, 64)`. -/
def center_dist_sq (x y z : Nat) : Int :=
  ((x : Int) - 64) * ((x : Int) - 64) + ((y : Int) - 64) * ((y : Int) - 64)
    + ((z : Int) - 64) * ((z : Int) - 64)

/-- The field after `initialize_volume` has run on the zero-initialised global
array, as `main` does before rendering. -/
def sphere_volume : Volume α := initialize_volume zero_volume

/-- The accumulator `density` of `ray_march` after the loop has been allowed `k`
iterations: the loop with its bound `MAX_STEPS` replaced by `k`, which stops
where the full loop stops if that happens within the first `k` iterations. -/
def density_after (volume : Volume α) (start_x start_y start_z dir_x dir_y dir_z : α)
    (k : Nat) : α :=
  (march_loop volume dir_x dir_y dir_z k ⟨start_x, start_y, start_z, 0, 0⟩).density

/-- The unnormalised direction of pixel `(x, y)`, from its normalised device
coordinates: `(x/W - 0.5, y/H - 0.5, 1.0)`. -/
def ndc_direction (x y : Nat) : α × α × α :=
  ((x : α) / (IMAGE_WIDTH : α) - 1 / 2, (y : α) / (IMAGE_HEIGHT : α) - 1 / 2, 1)

/-- The squared L2 length of a vector. -/
def norm_sq (v : α × α × α) : α :=
  v.1 * v.1 + v.2.1 * v.2.1 + v.2.2 * v.2.2

/-- The advanced position after `j` additions of `direction * STEP_SIZE` is out
of the marcher's bounds. -/
def exits_at (start_x start_y start_z dir_x dir_y dir_z : α) (j : Nat) : Prop :=
  out_of_bounds (ray_point start_x dir_x j) (ray_point start_y dir_y j)
    (ray_point start_z dir_z j)

instance (start_x start_y start_z dir_x dir_y dir_z : α) (j : Nat) :
    Decidable (exits_at start_x start_y start_z dir_x dir_y dir_z j) := by
  unfold exits_at
  infer_instance

/-- The number of samples a ray contributes, in the words of the description of
the loop: the least `j` in `1 .. MAX_STEPS` whose advanced position is out of
bounds, or `MAX_STEPS` when there is none. -/
def exit_step (start_x start_y start_z dir_x dir_y dir_z : α) : Nat :=
  if h : ∃ j, j < MAX_STEPS + 1
      ∧ (1 ≤ j ∧ exits_at start_x start_y start_z dir_x dir_y dir_z j) then
    Nat.find h
  else MAX_STEPS

/-- The array read `volume[ix][iy][iz]` with the indices checked: `none` when an
index is outside `[0, VOLUME_SIZE)`. -/
def read_cell (volume : Volume α) (ix iy iz : Int) : Option α :=
  if 0 ≤ ix ∧ ix < (VOLUME_SIZE : Int) ∧ 0 ≤ iy ∧ iy < (VOLUME_SIZE : Int)
      ∧ 0 ≤ iz ∧ iz < (VOLUME_SIZE : Int) then
    some (volume ix.toNat iy.toNat iz.toNat)
  else
    none

/-- Source function `sample_volume` with the array read checked: `none` stands for
a read outside the array. -/
def sample_volume_checked (volume : Volume α) (x y z : α) : Option α :=
  let ix : Int := c_trunc (x * (VOLUME_SIZE : α))
  let iy : Int := c_trunc (y * (VOLUME_SIZE : α))
  let iz : Int := c_trunc (z * (VOLUME_SIZE : α))
  if ix < 0 ∨ iy < 0 ∨ iz < 0 ∨ ix ≥ (VOLUME_SIZE : Int) ∨ iy ≥ (VOLUME_SIZE : Int)
      ∨ iz ≥ (VOLUME_SIZE : Int) then
    some 0
  else
    read_cell volume ix iy iz

/-- The memory `render_image` works on: the global grid and the image buffer. -/
structure RenderState (α : Type) where
  volume : Volume α
  image : Image

/-- The pixels in the order of the two loops of `render_image`, as `(y, x)`
pairs: row after row, each row left to right. -/
def row_major_pixels : List (Nat × Nat) :=
  (List.range IMAGE_HEIGHT).flatMap (fun y => (List.range IMAGE_WIDTH).map (fun x => (y, x)))

/-- The body of the inner loop of `render_image` for pixel `p = (y, x)`, on the
memory: the grid is read, the buffer is written. -/
def render_pixel_state (sqrt : α → α) (st : RenderState α) (p : Nat × Nat) : RenderState α :=
  ⟨st.volume, render_pixel sqrt st.volume st.image p.1 p.2⟩

/-- Processing the pixels of `order` one after the other with the per-pixel step
of `render_image`. -/
def render_in_order (sqrt : α → α) (order : List (Nat × Nat)) (st : RenderState α) :
    RenderState α :=
  order.foldl (render_pixel_state sqrt) st

end Defs

section Theorems

variable {α : Type} [LinearOrderedField α] [FloorRing α]

theorem c_trunc_of_nonneg {q : α} (h : 0 ≤ q) : c_trunc q = ⌊q⌋ := by
  simp [c_trunc, h]

theorem c_trunc_of_neg {q : α} (h : q < 0) : c_trunc q = ⌈q⌉ := by
  simp [c_trunc, not_le.mpr h]

/-! ## The sampler -/

theorem sample_volume_of_outside (volume : Volume α) (x y z : α)
    (h : c_trunc (x * (VOLUME_SIZE : α)) < 0 ∨ c_trunc (y * (VOLUME_SIZE : α)) < 0
      ∨ c_trunc (z * (VOLUME_SIZE : α)) < 0
      ∨ c_trunc (x * (VOLUME_SIZE : α)) ≥ (VOLUME_SIZE : Int)
      ∨ c_trunc (y * (VOLUME_SIZE : α)) ≥ (VOLUME_SIZE : Int)
      ∨ c_trunc (z * (VOLUME_SIZE : α)) ≥ (VOLUME_SIZE : Int)) :
    sample_volume volume x y z = 0 := by
  unfold sample_volume
  simp only [if_pos h]

theorem sample_volume_of_inside (volume : Volume α) (x y z : α) (i j k : Nat)
    (hi : i < VOLUME_SIZE) (hj : j < VOLUME_SIZE) (hk : k < VOLUME_SIZE)
    (hx : c_trunc (x * (VOLUME_SIZE : α)) = (i : Int))
    (hy : c_trunc (y * (VOLUME_SIZE : α)) = (j : Int))
    (hz : c_trunc (z * (VOLUME_SIZE : α)) = (k : Int)) :
    sample_volume volume x y z = volume i j k := by
  unfold sample_volume
  simp only [hx, hy, hz, Int.toNat_ofNat]
  rw [if_neg]
  omega

theorem sample_volume_of_axis_outside (volume : Volume α) (x y z : α)
    (h : ∃ c ∈ [x, y, z], c_trunc (c * (VOLUME_SIZE : α)) < 0
      ∨ c_trunc (c * (VOLUME_SIZE : α)) ≥ (VOLUME_SIZE : Int)) :
    sample_volume volume x y z = 0 := by
  apply sample_volume_of_outside
  obtain ⟨c, hc, h⟩ := h
  simp only [List.mem_cons, List.mem_singleton, List.not_mem_nil, or_false] at hc
  rcases hc with rfl | rfl | rfl <;> rcases h with h | h <;> simp [h]

/-- A coordinate whose scaled value truncates to a negative index is at most
`-1 / VOLUME_SIZE`; one that truncates to an index `≥ VOLUME_SIZE` is at least 1. -/
theorem c_trunc_scaled_outside_iff (c : α) :
    (c_trunc (c * (VOLUME_SIZE : α)) < 0 ∨ c_trunc (c * (VOLUME_SIZE : α)) ≥ (VOLUME_SIZE : Int))
      ↔ (c ≤ -1 / (VOLUME_SIZE : α) ∨ 1 ≤ c) := by
  have hN : ((VOLUME_SIZE : Nat) : α) = 128 := by norm_num [VOLUME_SIZE]
  have hNi : ((VOLUME_SIZE : Nat) : Int) = 128 := by norm_num [VOLUME_SIZE]
  rw [hN, hNi]
  by_cases hc : 0 ≤ c
  · have h0 : (0 : α) ≤ c * 128 := by positivity
    rw [c_trunc_of_nonneg h0]
    have h1 : ¬ (⌊c * 128⌋ < 0) := by
      rw [not_lt]; exact Int.floor_nonneg.mpr h0
    have h2 : ¬ (c ≤ -1 / 128) := by
      rw [not_le]
      have : (-1 / 128 : α) < 0 := by norm_num
      linarith
    simp only [h1, h2, false_or, ge_iff_le]
    rw [Int.le_floor]
    constructor
    · intro h
      have : ((128 : Int) : α) = 128 := by norm_num
      rw [this] at h
      linarith
    · intro h
      have : ((128 : Int) : α) = 128 := by norm_num
      rw [this]
      linarith
  · have hc' : c < 0 := not_le.mp hc
    have h0 : c * 128 < 0 := by linarith
    rw [c_trunc_of_neg h0]
    have h1 : ¬ (⌈c * 128⌉ ≥ 128) := by
      rw [ge_iff_le, not_le, Int.ceil_lt_iff]
      have : ((128 : Int) : α) = 128 := by norm_num
      rw [this]
      linarith
    have h2 : ¬ (1 ≤ c) := by
      rw [not_le]; linarith
    simp only [h1, h2, or_false]
    rw [show (0 : Int) = -1 + 1 by norm_num, Int.lt_add_one_iff, Int.ceil_le]
    constructor
    · intro h
      have : (((-1 : Int)) : α) = -1 := by norm_num
      rw [this] at h
      rw [div_eq_mul_inv]
      linarith
    · intro h
      have : (((-1 : Int)) : α) = -1 := by norm_num
      rw [this]
      rw [div_eq_mul_inv] at h
      linarith

/-- C1 (as stated, refuted): over the all-ones field the coordinates
`(-0.001, 0, 0)` have floor index `-1` on the x axis, outside `[0, N)`, yet
`sample_volume` returns the stored value 1, because the C cast truncates
`-0.128` to index 0. -/
theorem C1_floor_outside_counterexample :
    ⌊(-1 / 1000 : ℚ) * (VOLUME_SIZE : ℚ)⌋ = -1
      ∧ ¬ (0 ≤ ⌊(-1 / 1000 : ℚ) * (VOLUME_SIZE : ℚ)⌋)
      ∧ sample_volume (fun _ _ _ => (1 : ℚ)) (-1 / 1000) 0 0 = 1
      ∧ sample_volume (fun _ _ _ => (1 : ℚ)) (-1 / 1000) 0 0 ≠ 0 := by
  have hf : ⌊(-1 / 1000 : ℚ) * (VOLUME_SIZE : ℚ)⌋ = -1 := by
    rw [Int.floor_eq_iff]; norm_num [VOLUME_SIZE]
  suffices h : sample_volume (fun _ _ _ => (1 : ℚ)) (-1 / 1000) 0 0 = 1 from
    ⟨hf, by rw [hf]; decide, h, by rw [h]; exact one_ne_zero⟩
  have hx : c_trunc ((-1 / 1000 : ℚ) * (VOLUME_SIZE : ℚ)) = ((0 : Nat) : Int) := by
    rw [c_trunc_of_neg (by norm_num [VOLUME_SIZE]), Int.ceil_eq_iff]; norm_num [VOLUME_SIZE]
  have h0 : c_trunc ((0 : ℚ) * (VOLUME_SIZE : ℚ)) = ((0 : Nat) : Int) := by
    simp [c_trunc]
  exact sample_volume_of_inside _ _ _ _ 0 0 0 (by decide) (by decide) (by decide) hx h0 h0

/-- C1 (amended): for every field and all coordinates, if the index obtained by
truncating `c * VOLUME_SIZE` toward zero (the C cast) lies outside `[0, N)` on
at least one axis, `sample_volume` returns exactly 0. -/
theorem C1_sample_outside_zero (volume : Volume α) (x y z : α)
    (h : ∃ c ∈ [x, y, z], c_trunc (c * (VOLUME_SIZE : α)) < 0
      ∨ c_trunc (c * (VOLUME_SIZE : α)) ≥ (VOLUME_SIZE : Int)) :
    sample_volume volume x y z = 0 :=
  sample_volume_of_axis_outside volume x y z h

theorem C1_sample_outside_zero_witness :
    (∃ c ∈ [(-1 : ℚ), 1 / 2, 1 / 2], c_trunc (c * (VOLUME_SIZE : ℚ)) < 0
        ∨ c_trunc (c * (VOLUME_SIZE : ℚ)) ≥ (VOLUME_SIZE : Int))
      ∧ sample_volume (fun _ _ _ => (1 : ℚ)) (-1) (1 / 2) (1 / 2) = 0 := by
  have h : ∃ c ∈ [(-1 : ℚ), 1 / 2, 1 / 2], c_trunc (c * (VOLUME_SIZE : ℚ)) < 0
        ∨ c_trunc (c * (VOLUME_SIZE : ℚ)) ≥ (VOLUME_SIZE : Int) := by
    refine ⟨-1, by simp, Or.inl ?_⟩
    rw [c_trunc_of_neg (by norm_num [VOLUME_SIZE])]
    have hc : ⌈(-1 : ℚ) * (VOLUME_SIZE : ℚ)⌉ = -128 := by
      rw [Int.ceil_eq_iff]; norm_num [VOLUME_SIZE]
    rw [hc]; decide
  exact ⟨h, C1_sample_outside_zero _ _ _ _ h⟩

/-- C2: for every field, every cell `(i, j, k)` of the grid and all coordinates
whose floor indices are `i`, `j`, `k`, `sample_volume` returns the stored value
`volume[i][j][k]` itself. -/
theorem C2_sample_returns_cell (volume : Volume α) (i j k : Nat) (x y z : α)
    (hi : i < VOLUME_SIZE) (hj : j < VOLUME_SIZE) (hk : k < VOLUME_SIZE)
    (hx : ⌊x * (VOLUME_SIZE : α)⌋ = (i : Int)) (hy : ⌊y * (VOLUME_SIZE : α)⌋ = (j : Int))
    (hz : ⌊z * (VOLUME_SIZE : α)⌋ = (k : Int)) :
    sample_volume volume x y z = volume i j k := by
  have key : ∀ (c : α) (n : Nat), ⌊c * (VOLUME_SIZE : α)⌋ = (n : Int) →
      c_trunc (c * (VOLUME_SIZE : α)) = (n : Int) := by
    intro c n hc
    have h0 : 0 ≤ c * (VOLUME_SIZE : α) := by
      rw [← Int.floor_nonneg, hc]; exact Int.ofNat_nonneg n
    rw [c_trunc_of_nonneg h0, hc]
  exact sample_volume_of_inside volume x y z i j k hi hj hk (key x i hx) (key y j hy)
    (key z k hz)

theorem C2_sample_returns_cell_witness :
    sample_volume (fun i j k => ((i + 2 * j + 3 * k : Nat) : ℚ)) (1 / 2) (3 / 10) (1 / 100)
      = ((64 + 2 * 38 + 3 * 1 : Nat) : ℚ) := by
  apply C2_sample_returns_cell (fun i j k => ((i + 2 * j + 3 * k : Nat) : ℚ)) 64 38 1
    (1 / 2) (3 / 10) (1 / 100) (by decide) (by decide) (by decide)
  · rw [Int.floor_eq_iff]; norm_num [VOLUME_SIZE]
  · rw [Int.floor_eq_iff]; norm_num [VOLUME_SIZE]
  · rw [Int.floor_eq_iff]; norm_num [VOLUME_SIZE]

/-! ## The marching loop -/

theorem sample_volume_nonneg (volume : Volume α)
    (hv : ∀ i j k, i < VOLUME_SIZE → j < VOLUME_SIZE → k < VOLUME_SIZE → 0 ≤ volume i j k)
    (x y z : α) : 0 ≤ sample_volume volume x y z := by
  unfold sample_volume
  simp only
  split_ifs with h
  · exact le_refl 0
  · apply hv <;> omega

omit [FloorRing α] in
theorem STEP_SIZE_pos : (0 : α) < STEP_SIZE := by
  unfold STEP_SIZE; positivity

theorem march_loop_density_nonneg (volume : Volume α)
    (hv : ∀ i j k, i < VOLUME_SIZE → j < VOLUME_SIZE → k < VOLUME_SIZE → 0 ≤ volume i j k)
    (dir_x dir_y dir_z : α) (n : Nat) :
    ∀ s : MarchState α, 0 ≤ s.density →
      0 ≤ (march_loop volume dir_x dir_y dir_z n s).density := by
  induction n with
  | zero => intro s hs; simpa [march_loop] using hs
  | succ n ih =>
    intro s hs
    have hd : 0 ≤ s.density + sample_volume volume s.pos_x s.pos_y s.pos_z * STEP_SIZE :=
      add_nonneg hs (mul_nonneg (sample_volume_nonneg volume hv _ _ _) STEP_SIZE_pos.le)
    simp only [march_loop]
    split_ifs with h
    · exact hd
    · exact ih _ hd

omit [FloorRing α] in
theorem ray_point_zero (start dir : α) : ray_point start dir 0 = start := by
  simp [ray_point]

omit [FloorRing α] in
theorem ray_point_succ (start dir : α) (k : Nat) :
    ray_point (start + dir * STEP_SIZE) dir k = ray_point start dir (k + 1) := by
  simp only [ray_point, Nat.cast_add, Nat.cast_one]
  ring

/-- The loop, run with a budget of `n` iterations from state `s`, executes
exactly `m` bodies when the advanced positions `1 .. m - 1` are in bounds and
either the budget is `m` or the `m`-th advanced position is out of bounds. -/
theorem march_loop_steps (volume : Volume α) (dir_x dir_y dir_z : α) (n : Nat) :
    ∀ (m : Nat) (s : MarchState α), m ≤ n →
      (∀ k, 1 ≤ k → k < m → ¬ out_of_bounds (ray_point s.pos_x dir_x k)
        (ray_point s.pos_y dir_y k) (ray_point s.pos_z dir_z k)) →
      (m = n ∨ (1 ≤ m ∧ out_of_bounds (ray_point s.pos_x dir_x m)
        (ray_point s.pos_y dir_y m) (ray_point s.pos_z dir_z m))) →
      march_loop volume dir_x dir_y dir_z n s =
        ⟨ray_point s.pos_x dir_x m, ray_point s.pos_y dir_y m, ray_point s.pos_z dir_z m,
          s.density + march_sum volume s.pos_x s.pos_y s.pos_z dir_x dir_y dir_z m,
          s.step + m⟩ := by
  induction n with
  | zero =>
    intro m s hm _ _
    have : m = 0 := by omega
    subst this
    simp [march_loop, march_sum, ray_point_zero]
  | succ n ih =>
    intro m s hm hin hstop
    cases m with
    | zero => omega
    | succ m =>
      have hsum : march_sum volume s.pos_x s.pos_y s.pos_z dir_x dir_y dir_z (m + 1)
          = sample_volume volume s.pos_x s.pos_y s.pos_z * STEP_SIZE
            + march_sum volume (s.pos_x + dir_x * STEP_SIZE) (s.pos_y + dir_y * STEP_SIZE)
                (s.pos_z + dir_z * STEP_SIZE) dir_x dir_y dir_z m := by
        simp only [march_sum, Finset.sum_range_succ', ray_point_zero, ray_point_succ]
        ring
      have hone : ∀ (a d : α), ray_point a d 1 = a + d * STEP_SIZE := by
        intro a d; simp [ray_point]
      simp only [march_loop]
      split_ifs with hout
      · -- the first advanced position is out of bounds: the loop stops here
        have hm0 : m = 0 := by
          by_contra hne
          have := hin 1 (le_refl 1) (by omega)
          rw [hone, hone, hone] at this
          exact this hout
        subst hm0
        simp [march_sum, ray_point_zero, hone]
      · have hstep := ih m ⟨s.pos_x + dir_x * STEP_SIZE, s.pos_y + dir_y * STEP_SIZE,
            s.pos_z + dir_z * STEP_SIZE,
            s.density + sample_volume volume s.pos_x s.pos_y s.pos_z * STEP_SIZE, s.step + 1⟩
          (by omega)
          (by
            intro k hk1 hkm
            simp only [ray_point_succ]
            exact hin (k + 1) (by omega) (by omega))
          (by
            rcases hstop with h | ⟨_, h⟩
            · left; omega
            · right
              simp only [ray_point_succ]
              refine ⟨?_, h⟩
              by_contra hne
              have hm0 : m = 0 := by omega
              subst hm0
              rw [hone, hone, hone] at h
              exact hout h)
        rw [hstep]
        simp only [ray_point_succ, hsum, MarchState.mk.injEq, true_and]
        constructor
        · ring
        · omega

/-- The final loop state of `ray_march` when exactly `m` bodies are executed. -/
theorem march_final_eq (volume : Volume α) (start_x start_y start_z dir_x dir_y dir_z : α)
    (m : Nat) (hm : m ≤ MAX_STEPS)
    (hin : ∀ k, 1 ≤ k → k < m → ¬ out_of_bounds (ray_point start_x dir_x k)
      (ray_point start_y dir_y k) (ray_point start_z dir_z k))
    (hstop : m = MAX_STEPS ∨ (1 ≤ m ∧ out_of_bounds (ray_point start_x dir_x m)
      (ray_point start_y dir_y m) (ray_point start_z dir_z m))) :
    march_final volume start_x start_y start_z dir_x dir_y dir_z =
      ⟨ray_point start_x dir_x m, ray_point start_y dir_y m, ray_point start_z dir_z m,
        march_sum volume start_x start_y start_z dir_x dir_y dir_z m, m⟩ := by
  unfold march_final
  rw [march_loop_steps volume dir_x dir_y dir_z MAX_STEPS m ⟨start_x, start_y, start_z, 0, 0⟩
    hm hin hstop]
  simp

theorem march_sum_const (volume : Volume α) (start_x start_y start_z dir_x dir_y dir_z : α)
    (m : Nat) (c : α)
    (h : ∀ k, k < m → sample_volume volume (ray_point start_x dir_x k)
      (ray_point start_y dir_y k) (ray_point start_z dir_z k) = c) :
    march_sum volume start_x start_y start_z dir_x dir_y dir_z m = (m : α) * (c * STEP_SIZE) := by
  unfold march_sum
  rw [Finset.sum_congr rfl (fun k hk => by rw [h k (Finset.mem_range.mp hk)])]
  simp [Finset.sum_const]

omit [FloorRing α] in
theorem ray_point_zero_dir (start : α) (k : Nat) : ray_point start 0 k = start := by
  simp [ray_point]

/-- With direction zero and an origin inside the marcher's bounds the loop runs
its whole budget, sampling the origin each time. -/
theorem march_final_zero_dir_inside (volume : Volume α) (start_x start_y start_z : α)
    (h : ¬ out_of_bounds start_x start_y start_z) :
    march_final volume start_x start_y start_z 0 0 0 =
      ⟨start_x, start_y, start_z,
        (MAX_STEPS : α) * (sample_volume volume start_x start_y start_z * STEP_SIZE),
        MAX_STEPS⟩ := by
  rw [march_final_eq volume start_x start_y start_z 0 0 0 MAX_STEPS (le_refl _)
    (by intro k _ _; simpa only [ray_point_zero_dir] using h) (Or.inl rfl)]
  rw [march_sum_const volume start_x start_y start_z 0 0 0 MAX_STEPS
    (sample_volume volume start_x start_y start_z)
    (by intro k _; simp only [ray_point_zero_dir])]
  simp only [ray_point_zero_dir]

/-- When the first advanced position is out of bounds the loop executes one
body. -/
theorem march_final_exit_first (volume : Volume α)
    (start_x start_y start_z dir_x dir_y dir_z : α)
    (h : out_of_bounds (start_x + dir_x * STEP_SIZE) (start_y + dir_y * STEP_SIZE)
      (start_z + dir_z * STEP_SIZE)) :
    march_final volume start_x start_y start_z dir_x dir_y dir_z =
      ⟨start_x + dir_x * STEP_SIZE, start_y + dir_y * STEP_SIZE, start_z + dir_z * STEP_SIZE,
        sample_volume volume start_x start_y start_z * STEP_SIZE, 1⟩ := by
  have hone : ∀ (a d : α), ray_point a d 1 = a + d * STEP_SIZE := by
    intro a d; simp [ray_point]
  rw [march_final_eq volume start_x start_y start_z dir_x dir_y dir_z 1 (by decide)
    (by intro k h1 h2; omega) (Or.inr ⟨le_refl 1, by simpa only [hone] using h⟩)]
  simp [march_sum, hone, ray_point_zero]

theorem sample_ones_of_in_grid (x y z : α) (hx : index_in_grid x) (hy : index_in_grid y)
    (hz : index_in_grid z) : sample_volume (ones_volume : Volume α) x y z = 1 := by
  unfold index_in_grid at hx hy hz
  unfold sample_volume
  simp only
  rw [if_neg (by omega)]
  rfl

theorem index_in_grid_iff (c : α) :
    index_in_grid c ↔ (-1 / (VOLUME_SIZE : α) < c ∧ c < 1) := by
  have h := c_trunc_scaled_outside_iff c
  unfold index_in_grid
  constructor
  · intro hg
    have hn : ¬ (c ≤ -1 / (VOLUME_SIZE : α) ∨ 1 ≤ c) := by
      rw [← h]; omega
    rw [not_or, not_le, not_le] at hn
    exact hn
  · intro hc
    have hn : ¬ (c_trunc (c * (VOLUME_SIZE : α)) < 0
        ∨ c_trunc (c * (VOLUME_SIZE : α)) ≥ (VOLUME_SIZE : Int)) := by
      rw [h, not_or, not_le, not_le]; exact hc
    omega

theorem index_in_grid_of_unit (c : α) (h0 : 0 ≤ c) (h1 : c < 1) : index_in_grid c := by
  rw [index_in_grid_iff]
  refine ⟨lt_of_lt_of_le ?_ h0, h1⟩
  norm_num [VOLUME_SIZE]

/-! ## Claims on the marcher -/

/-- C3: for every field whose cells are all non-negative, and every origin and
direction, `ray_march` returns a value `r` with `0 ≤ r ≤ 1`. -/
theorem C3_ray_march_in_unit_interval (volume : Volume α)
    (start_x start_y start_z dir_x dir_y dir_z : α)
    (hv : ∀ i j k, i < VOLUME_SIZE → j < VOLUME_SIZE → k < VOLUME_SIZE → 0 ≤ volume i j k) :
    0 ≤ ray_march volume start_x start_y start_z dir_x dir_y dir_z
      ∧ ray_march volume start_x start_y start_z dir_x dir_y dir_z ≤ 1 := by
  unfold ray_march march_final
  refine ⟨le_min ?_ zero_le_one, min_le_right _ _⟩
  exact march_loop_density_nonneg volume hv dir_x dir_y dir_z MAX_STEPS _ (le_refl 0)

theorem C3_ray_march_in_unit_interval_witness :
    (∀ i j k, i < VOLUME_SIZE → j < VOLUME_SIZE → k < VOLUME_SIZE →
        0 ≤ (ones_volume : Volume ℚ) i j k)
      ∧ 0 ≤ ray_march (ones_volume : Volume ℚ) (1 / 2) (1 / 2) (-1) 0 0 1
      ∧ ray_march (ones_volume : Volume ℚ) (1 / 2) (1 / 2) (-1) 0 0 1 ≤ 1 :=
  ⟨fun _ _ _ _ _ _ => by simp [ones_volume],
    C3_ray_march_in_unit_interval (ones_volume : Volume ℚ) (1 / 2) (1 / 2) (-1) 0 0 1
      (fun _ _ _ _ _ _ => by simp [ones_volume])⟩

/-- C4 (as stated, refuted): over the all-ones field the ray with origin
`(50, 50, 50)` and direction zero stays inside the marcher's bounds `[0, N)` for
all 256 steps, so the termination check never fires, yet every sample is taken
outside the sampler's domain and `ray_march` returns 0, not 1. -/
theorem C4_all_ones_counterexample :
    (∀ k, k ≤ MAX_STEPS → ¬ out_of_bounds (ray_point (50 : ℚ) 0 k) (ray_point (50 : ℚ) 0 k)
        (ray_point (50 : ℚ) 0 k))
      ∧ (march_final (ones_volume : Volume ℚ) 50 50 50 0 0 0).step = MAX_STEPS
      ∧ ray_march (ones_volume : Volume ℚ) 50 50 50 0 0 0 = 0
      ∧ ray_march (ones_volume : Volume ℚ) 50 50 50 0 0 0 ≠ 1 := by
  have hb : ¬ out_of_bounds (50 : ℚ) 50 50 := by
    unfold out_of_bounds; norm_num [VOLUME_SIZE]
  have hs : sample_volume (ones_volume : Volume ℚ) 50 50 50 = 0 := by
    apply sample_volume_of_outside
    right; right; right; left
    rw [c_trunc_of_nonneg (by norm_num [VOLUME_SIZE]), ge_iff_le, Int.le_floor]
    norm_num [VOLUME_SIZE]
  have hr : ray_march (ones_volume : Volume ℚ) 50 50 50 0 0 0 = 0 := by
    unfold ray_march
    rw [march_final_zero_dir_inside _ _ _ _ hb, hs]
    norm_num
  refine ⟨?_, ?_, hr, by rw [hr]; exact zero_ne_one⟩
  · intro k _
    simpa only [ray_point_zero_dir] using hb
  · rw [march_final_zero_dir_inside _ _ _ _ hb]

/-- C4 (amended): for every ray over the all-ones field whose marching position
stays inside the marcher's bounds `[0, N)` on all three axes for all 256 steps
and whose 256 sampled positions all map to a cell of the grid (truncated index
in `[0, N)` on each axis), `ray_march` runs all 256 steps, accumulates
`256 * 1.0 * 0.01 = 2.56` and returns exactly 1. -/
theorem C4_all_ones_saturates (start_x start_y start_z dir_x dir_y dir_z : α)
    (hb : ∀ k, 1 ≤ k → k ≤ MAX_STEPS → ¬ out_of_bounds (ray_point start_x dir_x k)
      (ray_point start_y dir_y k) (ray_point start_z dir_z k))
    (hg : ∀ k, k < MAX_STEPS → index_in_grid (ray_point start_x dir_x k)
      ∧ index_in_grid (ray_point start_y dir_y k) ∧ index_in_grid (ray_point start_z dir_z k)) :
    (march_final (ones_volume : Volume α) start_x start_y start_z dir_x dir_y dir_z).step
        = MAX_STEPS
      ∧ (march_final (ones_volume : Volume α) start_x start_y start_z dir_x dir_y dir_z).density
        = 256 * 1 * (1 / 100)
      ∧ (march_final (ones_volume : Volume α) start_x start_y start_z dir_x dir_y dir_z).density
        = 64 / 25
      ∧ ray_march (ones_volume : Volume α) start_x start_y start_z dir_x dir_y dir_z = 1 := by
  have hf := march_final_eq (ones_volume : Volume α) start_x start_y start_z dir_x dir_y dir_z
    MAX_STEPS (le_refl _) (fun k h1 h2 => hb k h1 (le_of_lt h2)) (Or.inl rfl)
  have hsum := march_sum_const (ones_volume : Volume α) start_x start_y start_z dir_x dir_y dir_z
    MAX_STEPS 1
    (fun k hk => sample_ones_of_in_grid _ _ _ (hg k hk).1 (hg k hk).2.1 (hg k hk).2.2)
  have hd : (march_final (ones_volume : Volume α) start_x start_y start_z
      dir_x dir_y dir_z).density = 64 / 25 := by
    rw [hf]
    simp only [hsum]
    norm_num [MAX_STEPS, STEP_SIZE]
  refine ⟨by rw [hf], by rw [hd]; norm_num, hd, ?_⟩
  unfold ray_march
  rw [hd]
  norm_num

theorem C4_all_ones_saturates_witness :
    (∀ k, 1 ≤ k → k ≤ MAX_STEPS → ¬ out_of_bounds (ray_point (1 / 2 : ℚ) 0 k)
        (ray_point (1 / 2 : ℚ) 0 k) (ray_point (1 / 2 : ℚ) (1 / 10) k))
      ∧ (∀ k, k < MAX_STEPS → index_in_grid (ray_point (1 / 2 : ℚ) 0 k)
        ∧ index_in_grid (ray_point (1 / 2 : ℚ) 0 k)
        ∧ index_in_grid (ray_point (1 / 2 : ℚ) (1 / 10) k))
      ∧ ray_march (ones_volume : Volume ℚ) (1 / 2) (1 / 2) (1 / 2) 0 0 (1 / 10) = 1 := by
  have hz : ∀ k : Nat, k ≤ MAX_STEPS →
      0 ≤ ray_point (1 / 2 : ℚ) (1 / 10) k ∧ ray_point (1 / 2 : ℚ) (1 / 10) k < 1 := by
    intro k hk
    have hk' : (k : ℚ) ≤ 256 := by
      have : k ≤ 256 := hk
      exact_mod_cast this
    have hk0 : (0 : ℚ) ≤ k := Nat.cast_nonneg k
    unfold ray_point STEP_SIZE
    constructor <;> linarith
  have hb : ∀ k, 1 ≤ k → k ≤ MAX_STEPS → ¬ out_of_bounds (ray_point (1 / 2 : ℚ) 0 k)
        (ray_point (1 / 2 : ℚ) 0 k) (ray_point (1 / 2 : ℚ) (1 / 10) k) := by
    intro k _ hk
    obtain ⟨h0, h1⟩ := hz k hk
    unfold out_of_bounds
    simp only [ray_point_zero_dir]
    norm_num [VOLUME_SIZE]
    exact ⟨h0, by linarith⟩
  have hg : ∀ k, k < MAX_STEPS → index_in_grid (ray_point (1 / 2 : ℚ) 0 k)
        ∧ index_in_grid (ray_point (1 / 2 : ℚ) 0 k)
        ∧ index_in_grid (ray_point (1 / 2 : ℚ) (1 / 10) k) := by
    intro k hk
    obtain ⟨h0, h1⟩ := hz k (le_of_lt hk)
    simp only [ray_point_zero_dir]
    exact ⟨index_in_grid_of_unit _ (by norm_num) (by norm_num),
      index_in_grid_of_unit _ (by norm_num) (by norm_num), index_in_grid_of_unit _ h0 h1⟩
  exact ⟨hb, hg, (C4_all_ones_saturates (1 / 2 : ℚ) (1 / 2) (1 / 2) 0 0 (1 / 10) hb hg).2.2.2⟩

/-- C5 (as stated, refuted): over the all-ones field, the origin
`(-0.001, 0.5, 0.5)` with direction zero is already out of the marcher's bounds,
so the loop leaves after one step and `ray_march` returns `0.01`, whereas
`min(sample_volume(origin) * STEP_SIZE * MAX_STEPS, 1)` is 1. -/
theorem C5_zero_direction_counterexample :
    (march_final (ones_volume : Volume ℚ) (-1 / 1000) (1 / 2) (1 / 2) 0 0 0).step = 1
      ∧ ray_march (ones_volume : Volume ℚ) (-1 / 1000) (1 / 2) (1 / 2) 0 0 0 = 1 / 100
      ∧ min (sample_volume (ones_volume : Volume ℚ) (-1 / 1000) (1 / 2) (1 / 2) * STEP_SIZE
          * (MAX_STEPS : ℚ)) 1 = 1
      ∧ ray_march (ones_volume : Volume ℚ) (-1 / 1000) (1 / 2) (1 / 2) 0 0 0
          ≠ min (sample_volume (ones_volume : Volume ℚ) (-1 / 1000) (1 / 2) (1 / 2) * STEP_SIZE
              * (MAX_STEPS : ℚ)) 1 := by
  have hs : sample_volume (ones_volume : Volume ℚ) (-1 / 1000) (1 / 2) (1 / 2) = 1 := by
    apply sample_ones_of_in_grid <;> rw [index_in_grid_iff] <;> norm_num [VOLUME_SIZE]
  have hf := march_final_exit_first (ones_volume : Volume ℚ) (-1 / 1000) (1 / 2) (1 / 2) 0 0 0
    (by unfold out_of_bounds; norm_num)
  have hr : ray_march (ones_volume : Volume ℚ) (-1 / 1000) (1 / 2) (1 / 2) 0 0 0 = 1 / 100 := by
    unfold ray_march
    rw [hf]
    simp only [hs]
    norm_num [STEP_SIZE]
  have hm : min (sample_volume (ones_volume : Volume ℚ) (-1 / 1000) (1 / 2) (1 / 2) * STEP_SIZE
      * (MAX_STEPS : ℚ)) 1 = 1 := by
    rw [hs]
    norm_num [STEP_SIZE, MAX_STEPS]
  refine ⟨by rw [hf], hr, hm, ?_⟩
  rw [hr, hm]
  norm_num

/-- C5 (amended): for every field and every origin inside the marcher's bounds
`[0, N)` on all three axes, `ray_march` with direction `(0, 0, 0)` runs all
`MAX_STEPS = 256` steps, its position staying at the origin, and returns
`min(sample_volume(origin) * STEP_SIZE * MAX_STEPS, 1)`. -/
theorem C5_zero_direction_inside (volume : Volume α) (start_x start_y start_z : α)
    (h : ¬ out_of_bounds start_x start_y start_z) :
    (march_final volume start_x start_y start_z 0 0 0).step = MAX_STEPS
      ∧ (march_final volume start_x start_y start_z 0 0 0).pos_x = start_x
      ∧ (march_final volume start_x start_y start_z 0 0 0).pos_y = start_y
      ∧ (march_final volume start_x start_y start_z 0 0 0).pos_z = start_z
      ∧ ray_march volume start_x start_y start_z 0 0 0
        = min (sample_volume volume start_x start_y start_z * STEP_SIZE * (MAX_STEPS : α)) 1 := by
  unfold ray_march
  rw [march_final_zero_dir_inside volume start_x start_y start_z h]
  refine ⟨rfl, rfl, rfl, rfl, ?_⟩
  congr 1
  ring

theorem C5_zero_direction_inside_witness :
    ¬ out_of_bounds (1 / 2 : ℚ) (1 / 2) (1 / 2)
      ∧ (march_final (fun _ _ _ => (1 / 4 : ℚ)) (1 / 2) (1 / 2) (1 / 2) 0 0 0).step = MAX_STEPS
      ∧ ray_march (fun _ _ _ => (1 / 4 : ℚ)) (1 / 2) (1 / 2) (1 / 2) 0 0 0
        = min (sample_volume (fun _ _ _ => (1 / 4 : ℚ)) (1 / 2) (1 / 2) (1 / 2) * STEP_SIZE
            * (MAX_STEPS : ℚ)) 1 :=
  ⟨by unfold out_of_bounds; norm_num [VOLUME_SIZE],
    (C5_zero_direction_inside (fun _ _ _ => (1 / 4 : ℚ)) (1 / 2) (1 / 2) (1 / 2)
      (by unfold out_of_bounds; norm_num [VOLUME_SIZE])).1,
    (C5_zero_direction_inside (fun _ _ _ => (1 / 4 : ℚ)) (1 / 2) (1 / 2) (1 / 2)
      (by unfold out_of_bounds; norm_num [VOLUME_SIZE])).2.2.2.2⟩

/-- C6: for every field and every ray whose first advanced position
`origin + direction * STEP_SIZE` lies outside `[0, N)` on some axis, `ray_march`
counts exactly one sample: the loop executes one body and the result is
`min(sample_volume(origin) * STEP_SIZE, 1)`. -/
theorem C6_exit_after_first_sample (volume : Volume α)
    (start_x start_y start_z dir_x dir_y dir_z : α)
    (h : out_of_bounds (start_x + dir_x * STEP_SIZE) (start_y + dir_y * STEP_SIZE)
      (start_z + dir_z * STEP_SIZE)) :
    (march_final volume start_x start_y start_z dir_x dir_y dir_z).step = 1
      ∧ ray_march volume start_x start_y start_z dir_x dir_y dir_z
        = min (sample_volume volume start_x start_y start_z * STEP_SIZE) 1 := by
  unfold ray_march
  rw [march_final_exit_first volume start_x start_y start_z dir_x dir_y dir_z h]
  exact ⟨rfl, rfl⟩

theorem C6_exit_after_first_sample_witness :
    out_of_bounds ((-1 / 1000 : ℚ) + 0 * STEP_SIZE) ((1 / 2 : ℚ) + 0 * STEP_SIZE)
        ((0 : ℚ) + 1 * STEP_SIZE)
      ∧ (march_final (ones_volume : Volume ℚ) (-1 / 1000) (1 / 2) 0 0 0 1).step = 1
      ∧ ray_march (ones_volume : Volume ℚ) (-1 / 1000) (1 / 2) 0 0 0 1
        = min (sample_volume (ones_volume : Volume ℚ) (-1 / 1000) (1 / 2) 0 * STEP_SIZE) 1 :=
  ⟨by unfold out_of_bounds; norm_num,
    C6_exit_after_first_sample (ones_volume : Volume ℚ) (-1 / 1000) (1 / 2) 0 0 0 1
      (by unfold out_of_bounds; norm_num)⟩

/-! ## The sphere initialiser -/

/-- The truncation of an exact square root: if `r ≥ 0` and `r * r = s`, the C
cast of `r` to `int` is the integer square root of `⌊s⌋`. -/
theorem trunc_sqrt_eq (r s : α) (hr : 0 ≤ r) (hs : r * r = s) :
    c_trunc r = Int.ofNat (Nat.sqrt (Int.toNat ⌊s⌋)) := by
  rw [c_trunc_of_nonneg hr]
  have hfl : 0 ≤ ⌊r⌋ := Int.floor_nonneg.mpr hr
  obtain ⟨n, hn⟩ := Int.eq_ofNat_of_zero_le hfl
  have h1 : (n : α) ≤ r := by
    have := Int.floor_le r
    rw [hn] at this
    exact_mod_cast this
  have h2 : r < (n : α) + 1 := by
    have := Int.lt_floor_add_one r
    rw [hn] at this
    exact_mod_cast this
  have hn0 : (0 : α) ≤ n := Nat.cast_nonneg n
  have hs1 : ((n * n : Nat) : α) ≤ s := by
    rw [← hs]; push_cast; exact mul_le_mul h1 h1 hn0 hr
  have hs2 : s < (((n + 1) * (n + 1) : Nat) : α) := by
    rw [← hs]; push_cast
    exact mul_lt_mul'' h2 h2 hr hr
  have hs0 : 0 ≤ s := by rw [← hs]; exact mul_nonneg hr hr
  have hfs : 0 ≤ ⌊s⌋ := Int.floor_nonneg.mpr hs0
  obtain ⟨m, hm⟩ := Int.eq_ofNat_of_zero_le hfs
  have hm1 : n * n ≤ m := by
    have : ((n * n : Nat) : Int) ≤ ⌊s⌋ := by
      rw [Int.le_floor]; exact_mod_cast hs1
    rw [hm] at this
    exact_mod_cast this
  have hm2 : m < (n + 1) * (n + 1) := by
    have : ⌊s⌋ < (((n + 1) * (n + 1) : Nat) : Int) := by
      rw [Int.floor_lt]; exact_mod_cast hs2
    rw [hm] at this
    exact_mod_cast this
  rw [hn, hm]
  simp only [Int.toNat_ofNat, Int.ofNat_eq_coe, Nat.cast_inj]
  exact Nat.eq_sqrt.mpr ⟨hm1, hm2⟩

theorem sphere_value_eq (x y z : Nat) :
    (sphere_value x y z : α) = if center_dist_sq x y z < 1089 then 1 else 0 := by
  have hc : ((VOLUME_SIZE : Int) / 2 : Int) = 64 := by decide
  have hr : ((VOLUME_SIZE : Int) / 4 : Int) = 32 := by decide
  have hd : (0 : Int) ≤ center_dist_sq x y z := by
    unfold center_dist_sq
    have h1 := mul_self_nonneg ((x : Int) - 64)
    have h2 := mul_self_nonneg ((y : Int) - 64)
    have h3 := mul_self_nonneg ((z : Int) - 64)
    omega
  have hfl : ⌊((x : α) - ((64 : Int) : α)) ^ 2 + ((y : α) - ((64 : Int) : α)) ^ 2
      + ((z : α) - ((64 : Int) : α)) ^ 2⌋ = center_dist_sq x y z := by
    have : ((x : α) - ((64 : Int) : α)) ^ 2 + ((y : α) - ((64 : Int) : α)) ^ 2
        + ((z : α) - ((64 : Int) : α)) ^ 2 = ((center_dist_sq x y z : Int) : α) := by
      unfold center_dist_sq
      push_cast
      ring
    rw [this, Int.floor_intCast]
  unfold sphere_value euclidian_distance
  simp only [hc, hr, hfl]
  obtain ⟨n, hn⟩ := Int.eq_ofNat_of_zero_le hd
  rw [hn]
  simp only [Int.toNat_ofNat, Int.ofNat_eq_coe, Int.cast_natCast]
  have hiff : ((Nat.sqrt n : Nat) : α) ≤ ((32 : Int) : α) ↔ (n : Int) < 1089 := by
    have h32 : ((32 : Int) : α) = ((32 : Nat) : α) := by norm_num
    rw [h32, Nat.cast_le, ← Nat.lt_succ_iff, Nat.sqrt_lt']
    constructor
    · intro h
      have : n < 1089 := by simpa using h
      exact_mod_cast this
    · intro h
      have : n < 1089 := by exact_mod_cast h
      simpa using this
  by_cases h : (n : Int) < 1089
  · rw [if_pos h, if_pos (hiff.mpr h)]
  · rw [if_neg h, if_neg (fun h2 => h (hiff.mp h2))]

theorem initialize_cell_eq (volume : Volume α) (x y z : Nat) :
    initialize_cell volume x y z = set_cell volume x y z (sphere_value x y z) := rfl

omit [LinearOrderedField α] [FloorRing α] in
/-- A loop whose body overwrites the cells selected by `S b` with the values of
`F` and leaves the others alone overwrites exactly the cells selected by some
`b` of the list. -/
theorem foldl_overwrite {β : Type} (g : Volume α → β → Volume α) (F : Volume α)
    (S : β → Nat → Nat → Nat → Prop)
    (hin : ∀ v b i j k, S b i j k → g v b i j k = F i j k)
    (hout : ∀ v b i j k, ¬ S b i j k → g v b i j k = v i j k)
    (l : List β) (i j k : Nat) :
    ∀ v : Volume α, ((∃ b ∈ l, S b i j k) → l.foldl g v i j k = F i j k)
      ∧ ((¬ ∃ b ∈ l, S b i j k) → l.foldl g v i j k = v i j k) := by
  induction l with
  | nil =>
    intro v
    simp
  | cons a l ih =>
    intro v
    simp only [List.foldl_cons]
    obtain ⟨ih1, ih2⟩ := ih (g v a)
    by_cases hl : ∃ b ∈ l, S b i j k
    · refine ⟨fun _ => ih1 hl, fun hn => ?_⟩
      exfalso
      obtain ⟨b, hb, hS⟩ := hl
      exact hn ⟨b, List.mem_cons_of_mem a hb, hS⟩
    · rw [ih2 hl]
      constructor
      · rintro ⟨b, hb, hS⟩
        rcases List.mem_cons.mp hb with rfl | hb
        · exact hin v b i j k hS
        · exact absurd ⟨b, hb, hS⟩ hl
      · intro hn
        apply hout
        intro hS
        exact hn ⟨a, List.mem_cons_self a l, hS⟩

theorem initialize_row (volume : Volume α) (x y i j k : Nat) :
    ((i = x ∧ j = y ∧ k < VOLUME_SIZE) →
        (List.range VOLUME_SIZE).foldl (fun v z => initialize_cell v x y z) volume i j k
          = sphere_value i j k)
      ∧ (¬ (i = x ∧ j = y ∧ k < VOLUME_SIZE) →
        (List.range VOLUME_SIZE).foldl (fun v z => initialize_cell v x y z) volume i j k
          = volume i j k) := by
  have h := foldl_overwrite (fun (v : Volume α) z => initialize_cell v x y z)
    (fun i j k => sphere_value i j k) (fun z i j k => i = x ∧ j = y ∧ k = z)
    (by
      intro v b i j k hS
      obtain ⟨rfl, rfl, rfl⟩ := hS
      simp [initialize_cell_eq, set_cell])
    (by
      intro v b i j k hS
      simp only [initialize_cell_eq, set_cell]
      rw [if_neg hS])
    (List.range VOLUME_SIZE) i j k volume
  constructor
  · rintro ⟨hi, hj, hk⟩
    exact h.1 ⟨k, List.mem_range.mpr hk, hi, hj, rfl⟩
  · intro hn
    apply h.2
    rintro ⟨b, hb, hi, hj, rfl⟩
    exact hn ⟨hi, hj, List.mem_range.mp hb⟩

theorem initialize_plane (volume : Volume α) (x i j k : Nat) :
    ((i = x ∧ j < VOLUME_SIZE ∧ k < VOLUME_SIZE) →
        (List.range VOLUME_SIZE).foldl (fun v y =>
          (List.range VOLUME_SIZE).foldl (fun v z => initialize_cell v x y z) v) volume i j k
          = sphere_value i j k)
      ∧ (¬ (i = x ∧ j < VOLUME_SIZE ∧ k < VOLUME_SIZE) →
        (List.range VOLUME_SIZE).foldl (fun v y =>
          (List.range VOLUME_SIZE).foldl (fun v z => initialize_cell v x y z) v) volume i j k
          = volume i j k) := by
  have h := foldl_overwrite (fun (v : Volume α) y =>
      (List.range VOLUME_SIZE).foldl (fun v z => initialize_cell v x y z) v)
    (fun i j k => sphere_value i j k) (fun y i j k => i = x ∧ j = y ∧ k < VOLUME_SIZE)
    (fun v b i j k hS => (initialize_row v x b i j k).1 hS)
    (fun v b i j k hS => (initialize_row v x b i j k).2 hS)
    (List.range VOLUME_SIZE) i j k volume
  constructor
  · rintro ⟨hi, hj, hk⟩
    exact h.1 ⟨j, List.mem_range.mpr hj, hi, rfl, hk⟩
  · intro hn
    apply h.2
    rintro ⟨b, hb, hi, rfl, hk⟩
    exact hn ⟨hi, List.mem_range.mp hb, hk⟩

/-- After `initialize_volume` every cell of the grid holds the value computed
for it by the loop body, whatever the array held before. -/
theorem initialize_volume_cell (volume : Volume α) (i j k : Nat)
    (hi : i < VOLUME_SIZE) (hj : j < VOLUME_SIZE) (hk : k < VOLUME_SIZE) :
    initialize_volume volume i j k = sphere_value i j k := by
  have h := foldl_overwrite (fun (v : Volume α) x =>
      (List.range VOLUME_SIZE).foldl (fun v y =>
        (List.range VOLUME_SIZE).foldl (fun v z => initialize_cell v x y z) v) v)
    (fun i j k => sphere_value i j k)
    (fun x i j k => i = x ∧ j < VOLUME_SIZE ∧ k < VOLUME_SIZE)
    (fun v b i j k hS => (initialize_plane v b i j k).1 hS)
    (fun v b i j k hS => (initialize_plane v b i j k).2 hS)
    (List.range VOLUME_SIZE) i j k volume
  exact h.1 ⟨i, List.mem_range.mpr hi, rfl, hj, hk⟩

/-- The sphere field, cell by cell: 1 where the squared distance from the centre
is below `33 * 33 = 1089`, 0 elsewhere. -/
theorem sphere_volume_cell (i j k : Nat)
    (hi : i < VOLUME_SIZE) (hj : j < VOLUME_SIZE) (hk : k < VOLUME_SIZE) :
    (sphere_volume : Volume α) i j k = if center_dist_sq i j k < 1089 then 1 else 0 := by
  unfold sphere_volume
  rw [initialize_volume_cell _ i j k hi hj hk, sphere_value_eq]

/-- C8 (the code at the failing input): cell `(96, 72, 64)` lies at squared
distance `32² + 8² = 1088 > 1024` from the centre, i.e. farther than the radius
32, and `initialize_volume` stores 1 in it, because `euclidian_distance` returns
the distance truncated to `int` (here 32). -/
theorem C8_cell_beyond_radius_is_one :
    (sphere_volume : Volume ℚ) 96 72 64 = 1
      ∧ center_dist_sq 96 72 64 = 1088
      ∧ ¬ (center_dist_sq 96 72 64 ≤ 1024)
      ∧ euclidian_distance (⟨96, 72, 64⟩ : Point ℚ) ⟨64, 64, 64⟩ = 32 := by
  have hd : center_dist_sq 96 72 64 = 1088 := by decide
  refine ⟨?_, hd, by rw [hd]; decide, ?_⟩
  · rw [sphere_volume_cell 96 72 64 (by decide) (by decide) (by decide), hd]
    rfl
  · unfold euclidian_distance
    have hfl : ⌊((96 : ℚ) - 64) ^ 2 + ((72 : ℚ) - 64) ^ 2 + ((64 : ℚ) - 64) ^ 2⌋ = 1088 := by
      rw [Int.floor_eq_iff]; norm_num
    simp only [hfl]
    have hs : Nat.sqrt 1088 = 32 := by
      symm; rw [Nat.eq_sqrt]; decide
    show Int.ofNat (Nat.sqrt 1088) = 32
    rw [hs]
    rfl

/-! ## Rays along the z axis through the sphere field -/

/-- The truncated z index of the `k`-th position of a ray that starts at `z = 0`
with direction `z = 1`: the position is `k / 100`, its index `⌊128 k / 100⌋`. -/
theorem c_trunc_z_ray (k : Nat) :
    c_trunc (ray_point (0 : α) 1 k * (VOLUME_SIZE : α)) = ((k * 128 / 100 : Nat) : Int) := by
  have hval : ray_point (0 : α) 1 k * (VOLUME_SIZE : α) = ((k * 128 : Nat) : α) * (1 / 100) := by
    unfold ray_point STEP_SIZE
    norm_num [VOLUME_SIZE]
    ring
  have hnn : (0 : α) ≤ ((k * 128 : Nat) : α) * (1 / 100) :=
    mul_nonneg (Nat.cast_nonneg _) (by norm_num)
  rw [hval, c_trunc_of_nonneg hnn, Int.floor_eq_iff]
  have hdm := Nat.div_add_mod (k * 128) 100
  have hlt : k * 128 % 100 < 100 := Nat.mod_lt _ (by decide)
  have hdm' : ((k * 128 : Nat) : α) = 100 * ((k * 128 / 100 : Nat) : α)
      + ((k * 128 % 100 : Nat) : α) := by
    exact_mod_cast hdm.symm
  have hlt' : ((k * 128 % 100 : Nat) : α) < 100 := by exact_mod_cast hlt
  have hr0 : (0 : α) ≤ ((k * 128 % 100 : Nat) : α) := Nat.cast_nonneg _
  rw [Int.cast_natCast]
  constructor <;> linarith

omit [FloorRing α] in
/-- The positions of a ray from `(x0, y0, 0)` in direction `(0, 0, 1)` with
`x0`, `y0` inside the marcher's bounds never leave the bounds during the march. -/
theorem z_ray_in_bounds (x0 y0 : α) (hx : 0 ≤ x0 ∧ x0 < (VOLUME_SIZE : α))
    (hy : 0 ≤ y0 ∧ y0 < (VOLUME_SIZE : α)) (k : Nat) (hk : k ≤ MAX_STEPS) :
    ¬ out_of_bounds (ray_point x0 0 k) (ray_point y0 0 k) (ray_point (0 : α) 1 k) := by
  have hk' : (k : α) ≤ 256 := by
    have : k ≤ 256 := hk
    exact_mod_cast this
  have hk0 : (0 : α) ≤ k := Nat.cast_nonneg k
  have hN : ((VOLUME_SIZE : Nat) : α) = 128 := by norm_num [VOLUME_SIZE]
  rw [hN] at hx hy
  unfold out_of_bounds
  rw [hN]
  simp only [ray_point_zero_dir]
  unfold ray_point STEP_SIZE
  simp only [not_or, not_lt, ge_iff_le, not_le]
  refine ⟨hx.1, hx.2, hy.1, hy.2, ?_, ?_⟩ <;> linarith

/-- The sample the marcher takes at step `k` of a ray from `(x0, y0, 0)` in
direction `(0, 0, 1)`, when `x0` and `y0` have indices `ix` and `iy`. -/
theorem sample_z_ray (volume : Volume α) (x0 y0 : α) (ix iy : Nat)
    (hix : ix < VOLUME_SIZE) (hiy : iy < VOLUME_SIZE)
    (hx : c_trunc (x0 * (VOLUME_SIZE : α)) = (ix : Int))
    (hy : c_trunc (y0 * (VOLUME_SIZE : α)) = (iy : Int)) (k : Nat) :
    sample_volume volume (ray_point x0 0 k) (ray_point y0 0 k) (ray_point (0 : α) 1 k)
      = if k * 128 / 100 < VOLUME_SIZE then volume ix iy (k * 128 / 100) else 0 := by
  simp only [ray_point_zero_dir]
  split_ifs with h
  · exact sample_volume_of_inside volume _ _ _ ix iy (k * 128 / 100) hix hiy h hx hy
      (c_trunc_z_ray k)
  · apply sample_volume_of_outside
    right; right; right; right; right
    rw [c_trunc_z_ray k]
    have : VOLUME_SIZE ≤ k * 128 / 100 := not_lt.mp h
    exact_mod_cast this

/-- The value of `ray_march` over the sphere field for a ray from `(x0, y0, 0)`
in direction `(0, 0, 1)`: one hundredth of the number of steps whose sample
falls in a cell of the sphere, capped at 1. -/
theorem ray_march_sphere_z_ray (x0 y0 : α) (ix iy : Nat)
    (hix : ix < VOLUME_SIZE) (hiy : iy < VOLUME_SIZE)
    (hx0 : 0 ≤ x0 ∧ x0 < (VOLUME_SIZE : α)) (hy0 : 0 ≤ y0 ∧ y0 < (VOLUME_SIZE : α))
    (hx : c_trunc (x0 * (VOLUME_SIZE : α)) = (ix : Int))
    (hy : c_trunc (y0 * (VOLUME_SIZE : α)) = (iy : Int)) :
    ray_march (sphere_volume : Volume α) x0 y0 0 0 0 1
      = min ((((Finset.range MAX_STEPS).filter (fun k => k * 128 / 100 < VOLUME_SIZE
          ∧ center_dist_sq ix iy (k * 128 / 100) < 1089)).card : α) * STEP_SIZE) 1 := by
  unfold ray_march
  rw [march_final_eq (sphere_volume : Volume α) x0 y0 0 0 0 1 MAX_STEPS (le_refl _)
    (fun k _ hk => z_ray_in_bounds x0 y0 hx0 hy0 k (le_of_lt hk)) (Or.inl rfl)]
  simp only
  congr 1
  unfold march_sum
  rw [← Finset.sum_mul]
  congr 1
  rw [← Finset.sum_boole]
  apply Finset.sum_congr rfl
  intro k _
  rw [sample_z_ray (sphere_volume : Volume α) x0 y0 ix iy hix hiy hx hy k]
  by_cases h : k * 128 / 100 < VOLUME_SIZE
  · rw [if_pos h, sphere_volume_cell ix iy _ hix hiy h]
    by_cases h2 : center_dist_sq ix iy (k * 128 / 100) < 1089
    · rw [if_pos h2, if_pos ⟨h, h2⟩]
    · rw [if_neg h2, if_neg (fun hc => h2 hc.2)]
  · rw [if_neg h, if_neg (fun hc => h hc.1)]

/-- A ray from `(x0, y0, -1)` in direction `(0, 0, 1)` samples vacuum at
`z = -1`, advances to `z = -0.99` and leaves the loop: the result is 0 over any
field. -/
theorem ray_march_from_behind (volume : Volume α) (x0 y0 : α) :
    ray_march volume x0 y0 (-1) 0 0 1 = 0 := by
  unfold ray_march
  rw [march_final_exit_first volume x0 y0 (-1) 0 0 1
    (by
      unfold out_of_bounds STEP_SIZE
      right; right; right; right; left
      norm_num)]
  have hs : sample_volume volume x0 y0 (-1) = 0 := by
    apply sample_volume_of_axis_outside
    refine ⟨-1, by simp, ?_⟩
    rw [c_trunc_scaled_outside_iff]
    left
    norm_num [VOLUME_SIZE]
  simp only [hs]
  norm_num

theorem c_trunc_half : c_trunc ((1 / 2 : α) * (VOLUME_SIZE : α)) = ((64 : Nat) : Int) := by
  rw [c_trunc_of_nonneg (by norm_num [VOLUME_SIZE]), Int.floor_eq_iff]
  norm_num [VOLUME_SIZE]

theorem c_trunc_nine_tenths :
    c_trunc ((9 / 10 : α) * (VOLUME_SIZE : α)) = ((115 : Nat) : Int) := by
  rw [c_trunc_of_nonneg (by norm_num [VOLUME_SIZE]), Int.floor_eq_iff]
  norm_num [VOLUME_SIZE]

theorem c_trunc_three_tenths :
    c_trunc ((3 / 10 : α) * (VOLUME_SIZE : α)) = ((38 : Nat) : Int) := by
  rw [c_trunc_of_nonneg (by norm_num [VOLUME_SIZE]), Int.floor_eq_iff]
  norm_num [VOLUME_SIZE]

/-- The ray through the centre of the sphere from the face `z = 0`: 51 of its
256 samples (steps 25 to 75) fall in the sphere. -/
theorem ray_march_sphere_centre : ray_march (sphere_volume : Volume α) (1 / 2) (1 / 2) 0 0 0 1
    = 51 / 100 := by
  rw [ray_march_sphere_z_ray (1 / 2) (1 / 2) 64 64 (by decide) (by decide)
    (by norm_num [VOLUME_SIZE]) (by norm_num [VOLUME_SIZE]) c_trunc_half c_trunc_half]
  have hc : ((Finset.range MAX_STEPS).filter (fun k => k * 128 / 100 < VOLUME_SIZE
      ∧ center_dist_sq 64 64 (k * 128 / 100) < 1089)).card = 51 := by decide
  rw [hc]
  norm_num [STEP_SIZE]

/-- The parallel ray offset to `x = 0.9` meets no cell of the sphere. -/
theorem ray_march_sphere_offset : ray_march (sphere_volume : Volume α) (9 / 10) (1 / 2) 0 0 0 1
    = 0 := by
  rw [ray_march_sphere_z_ray (9 / 10) (1 / 2) 115 64 (by decide) (by decide)
    (by norm_num [VOLUME_SIZE]) (by norm_num [VOLUME_SIZE]) c_trunc_nine_tenths c_trunc_half]
  have hc : ((Finset.range MAX_STEPS).filter (fun k => k * 128 / 100 < VOLUME_SIZE
      ∧ center_dist_sq 115 64 (k * 128 / 100) < 1089)).card = 0 := by decide
  rw [hc]
  norm_num [STEP_SIZE]

/-- C7 (as stated, refuted): over the field of `initialize_volume` the ray of
`test_ray_march`, origin `(0.5, 0.5, -1)` and direction `(0, 0, 1)`, yields 0,
and so does the offset ray from `(0.9, 0.5, -1)`: the centre ray is not
strictly greater. -/
theorem C7_test_ray_counterexample :
    ray_march (sphere_volume : Volume ℚ) (1 / 2) (1 / 2) (-1) 0 0 1 = 0
      ∧ ray_march (sphere_volume : Volume ℚ) (9 / 10) (1 / 2) (-1) 0 0 1 = 0
      ∧ ¬ (ray_march (sphere_volume : Volume ℚ) (9 / 10) (1 / 2) (-1) 0 0 1
          < ray_march (sphere_volume : Volume ℚ) (1 / 2) (1 / 2) (-1) 0 0 1) := by
  have h1 := ray_march_from_behind (sphere_volume : Volume ℚ) (1 / 2) (1 / 2)
  have h2 := ray_march_from_behind (sphere_volume : Volume ℚ) (9 / 10) (1 / 2)
  refine ⟨h1, h2, ?_⟩
  rw [h1, h2]
  exact lt_irrefl 0

/-- C7 (amended): over the field of `initialize_volume`, the ray `test_ray_march`
marches (origin `(0.5, 0.5, -1)`, direction `(0, 0, 1)`) and the parallel ray
from `(0.9, 0.5, -1)` both yield exactly 0; the ray through the sphere's centre
that starts on the face of the domain, origin `(0.5, 0.5, 0)`, yields `0.51`,
strictly more than the parallel ray offset beyond the radius, origin
`(0.9, 0.5, 0)`, which yields exactly 0. -/
theorem C7_sphere_centre_ray_exceeds_offset :
    ray_march (sphere_volume : Volume α) (1 / 2) (1 / 2) (-1) 0 0 1 = 0
      ∧ ray_march (sphere_volume : Volume α) (9 / 10) (1 / 2) (-1) 0 0 1 = 0
      ∧ ray_march (sphere_volume : Volume α) (1 / 2) (1 / 2) 0 0 0 1 = 51 / 100
      ∧ ray_march (sphere_volume : Volume α) (9 / 10) (1 / 2) 0 0 0 1 = 0
      ∧ ray_march (sphere_volume : Volume α) (9 / 10) (1 / 2) 0 0 0 1
          < ray_march (sphere_volume : Volume α) (1 / 2) (1 / 2) 0 0 0 1 := by
  refine ⟨ray_march_from_behind _ _ _, ray_march_from_behind _ _ _, ray_march_sphere_centre,
    ray_march_sphere_offset, ?_⟩
  rw [ray_march_sphere_centre, ray_march_sphere_offset]
  norm_num

/-! ## The image loop -/

theorem apply_writes_append (image : Image) (ws1 ws2 : List (Nat × Nat)) :
    apply_writes image (ws1 ++ ws2) = apply_writes (apply_writes image ws1) ws2 := by
  simp [apply_writes, List.foldl_append]

/-- A loop whose body performs the stores `f b` performs the concatenation of
these store sequences. -/
theorem foldl_apply_writes {β : Type} (f : β → List (Nat × Nat)) (l : List β) :
    ∀ image : Image, l.foldl (fun img b => apply_writes img (f b)) image
      = apply_writes image (l.flatMap f) := by
  induction l with
  | nil => intro image; rfl
  | cons a l ih =>
    intro image
    rw [List.foldl_cons, ih, List.flatMap_cons, apply_writes_append]

/-- The buffer `render_image` leaves is the result of its stores, performed in
program order. -/
theorem render_image_eq_apply_writes (sqrt : α → α) (volume : Volume α) (image : Image) :
    render_image sqrt volume image = apply_writes image (render_writes sqrt volume) := by
  unfold render_image render_writes
  have hin : ∀ (y : Nat) (img : Image),
      (List.range IMAGE_WIDTH).foldl (fun img x => render_pixel sqrt volume img y x) img
        = apply_writes img ((List.range IMAGE_WIDTH).flatMap
            (fun x => pixel_writes sqrt volume y x)) := by
    intro y img
    exact foldl_apply_writes (fun x => pixel_writes sqrt volume y x) _ img
  simp only [hin]
  exact foldl_apply_writes _ _ image

/-- Enumerating `n` consecutive blocks of `m` consecutive numbers starting at
`b * m` enumerates `n * m` consecutive numbers. -/
theorem flatMap_blocks (m b n : Nat) :
    (List.range n).flatMap (fun i => (List.range m).map (fun j => (b + i) * m + j))
      = (List.range (n * m)).map (fun t => b * m + t) := by
  induction n with
  | zero => simp
  | succ n ih =>
    rw [List.range_succ, List.flatMap_append, ih, List.flatMap_singleton, Nat.succ_mul,
      List.range_add, List.map_append, List.map_map]
    congr 1
    apply List.map_congr_left
    intro j _
    simp only [Function.comp]
    ring

/-- The offsets `render_image` stores to, in program order, are
`0, 1, 2, ..., W * H * 3 - 1`. -/
theorem render_writes_offsets (sqrt : α → α) (volume : Volume α) :
    (render_writes sqrt volume).map Prod.fst
      = List.range (IMAGE_WIDTH * IMAGE_HEIGHT * 3) := by
  unfold render_writes
  rw [List.map_flatMap]
  have hrow : ∀ y : Nat,
      ((List.range IMAGE_WIDTH).flatMap (fun x => pixel_writes sqrt volume y x)).map Prod.fst
        = (List.range (IMAGE_WIDTH * 3)).map (fun t => (0 + y) * (IMAGE_WIDTH * 3) + t) := by
    intro y
    rw [List.map_flatMap]
    have hpix : ∀ x : Nat, (pixel_writes sqrt volume y x).map Prod.fst
        = (List.range 3).map (fun j => (y * IMAGE_WIDTH + x) * 3 + j) := by
      intro x
      simp [pixel_writes, List.range_succ]
    simp only [hpix]
    rw [flatMap_blocks 3 (y * IMAGE_WIDTH) IMAGE_WIDTH]
    apply List.map_congr_left
    intro t _
    ring
  simp only [hrow]
  rw [flatMap_blocks (IMAGE_WIDTH * 3) 0 IMAGE_HEIGHT]
  simp only [Nat.zero_mul, Nat.zero_add, List.map_id']
  congr 1

theorem apply_writes_of_not_mem (o : Nat) (ws : List (Nat × Nat)) :
    ∀ image : Image, o ∉ ws.map Prod.fst → apply_writes image ws o = image o := by
  induction ws with
  | nil => intro image _; rfl
  | cons w ws ih =>
    intro image h
    rw [List.map_cons, List.mem_cons, not_or] at h
    show apply_writes (store image w.1 w.2) ws o = image o
    rw [ih _ h.2]
    simp [store, h.1]

/-- When no offset is stored to twice, the buffer holds at each stored offset
the value of its store. -/
theorem apply_writes_of_mem (o c : Nat) (ws : List (Nat × Nat)) :
    ∀ image : Image, (ws.map Prod.fst).Nodup → (o, c) ∈ ws → apply_writes image ws o = c := by
  induction ws with
  | nil => intro image _ h; simp at h
  | cons w ws ih =>
    intro image hnd h
    rw [List.map_cons, List.nodup_cons] at hnd
    show apply_writes (store image w.1 w.2) ws o = c
    rcases List.mem_cons.mp h with rfl | h
    · rw [apply_writes_of_not_mem _ _ _ hnd.1]
      simp [store]
    · exact ih _ hnd.2 h

theorem render_writes_nodup (sqrt : α → α) (volume : Volume α) :
    ((render_writes sqrt volume).map Prod.fst).Nodup := by
  rw [render_writes_offsets]
  exact List.nodup_range _

/-- After `render_image` the three bytes of pixel `(x, y)` hold its colour. -/
theorem render_image_pixel (sqrt : α → α) (volume : Volume α) (image : Image) (x y c : Nat)
    (hx : x < IMAGE_WIDTH) (hy : y < IMAGE_HEIGHT) (hc : c < 3) :
    render_image sqrt volume image ((y * IMAGE_WIDTH + x) * 3 + c) = pixel_color sqrt volume x y := by
  rw [render_image_eq_apply_writes]
  apply apply_writes_of_mem _ _ _ _ (render_writes_nodup sqrt volume)
  unfold render_writes
  rw [List.mem_flatMap]
  refine ⟨y, List.mem_range.mpr hy, ?_⟩
  rw [List.mem_flatMap]
  refine ⟨x, List.mem_range.mpr hx, ?_⟩
  unfold pixel_writes
  have h3 : c = 0 ∨ c = 1 ∨ c = 2 := by omega
  rcases h3 with rfl | rfl | rfl <;> simp

/-- For a value in `[0, 255]` the conversion to `unsigned char` is the floor. -/
theorem c_uchar_of_unit (d : α) (h0 : 0 ≤ d) (h1 : d ≤ 1) :
    c_uchar (d * 255) = Int.toNat ⌊d * 255⌋ := by
  have hn : 0 ≤ d * 255 := by positivity
  have hf0 : 0 ≤ ⌊d * 255⌋ := Int.floor_nonneg.mpr hn
  have hf1 : ⌊d * 255⌋ < 256 := by
    rw [Int.floor_lt]
    have : ((256 : Int) : α) = 256 := by norm_num
    rw [this]
    linarith
  unfold c_uchar
  rw [c_trunc_of_nonneg hn, Int.emod_eq_of_lt hf0 hf1]

/-- The centre pixel `(256, 256)` looks along the z axis when the square root is
exact. -/
theorem pixel_direction_centre :
    pixel_direction Real.sqrt 256 256 = ((0 : ℝ), (0 : ℝ), (1 : ℝ)) := by
  unfold pixel_direction
  norm_num [IMAGE_WIDTH, IMAGE_HEIGHT]

/-- The density of the centre pixel over the sphere field: 32 of the 256 samples
(steps 35 to 66) fall in the sphere. -/
theorem pixel_density_centre :
    pixel_density Real.sqrt (sphere_volume : Volume ℝ) 256 256 = 32 / 100 := by
  unfold pixel_density
  rw [pixel_direction_centre]
  simp only
  rw [ray_march_sphere_z_ray (1 / 2) (3 / 10) 64 38 (by decide) (by decide)
    (by norm_num [VOLUME_SIZE]) (by norm_num [VOLUME_SIZE]) c_trunc_half c_trunc_three_tenths]
  have hc : ((Finset.range MAX_STEPS).filter (fun k => k * 128 / 100 < VOLUME_SIZE
      ∧ center_dist_sq 64 38 (k * 128 / 100) < 1089)).card = 32 := by decide
  rw [hc]
  norm_num [STEP_SIZE]

/-! ## Claims on the image loop -/

/-- C9 (as stated, refuted): with the sphere field and the exact square root,
the centre pixel `(256, 256)` has density `0.32`; `render_image` stores 81 for
it, whereas `round(0.32 * 255) = round(81.6)` is 82.  Likewise the cast turns
density `0.5` into 127, not 128. -/
theorem C9_rounding_counterexample :
    pixel_density Real.sqrt (sphere_volume : Volume ℝ) 256 256 = 32 / 100
      ∧ render_image Real.sqrt (sphere_volume : Volume ℝ) (fun _ => 0)
          ((256 * IMAGE_WIDTH + 256) * 3) = 81
      ∧ round (pixel_density Real.sqrt (sphere_volume : Volume ℝ) 256 256 * 255) = 82
      ∧ ((render_image Real.sqrt (sphere_volume : Volume ℝ) (fun _ => 0)
            ((256 * IMAGE_WIDTH + 256) * 3) : Nat) : Int)
          ≠ round (pixel_density Real.sqrt (sphere_volume : Volume ℝ) 256 256 * 255)
      ∧ c_uchar ((1 / 2 : ℝ) * 255) = 127
      ∧ round ((1 / 2 : ℝ) * 255) = 128 := by
  have hfl : ⌊(32 / 100 : ℝ) * 255⌋ = 81 := by
    rw [Int.floor_eq_iff]; norm_num
  have hfl2 : ⌊(1 / 2 : ℝ) * 255⌋ = 127 := by
    rw [Int.floor_eq_iff]; norm_num
  have hst : render_image Real.sqrt (sphere_volume : Volume ℝ) (fun _ => 0)
      ((256 * IMAGE_WIDTH + 256) * 3) = 81 := by
    have h := render_image_pixel Real.sqrt (sphere_volume : Volume ℝ) (fun _ => 0) 256 256 0
      (by decide) (by decide) (by decide)
    rw [Nat.add_zero] at h
    rw [h]
    unfold pixel_color
    rw [pixel_density_centre, c_uchar_of_unit _ (by norm_num) (by norm_num), hfl]
    rfl
  have hrd : round (pixel_density Real.sqrt (sphere_volume : Volume ℝ) 256 256 * 255) = 82 := by
    rw [pixel_density_centre, round_eq, Int.floor_eq_iff]
    norm_num
  refine ⟨pixel_density_centre, hst, hrd, by rw [hst, hrd]; decide, ?_, ?_⟩
  · rw [c_uchar_of_unit _ (by norm_num) (by norm_num), hfl2]
    rfl
  · rw [round_eq, Int.floor_eq_iff]
    norm_num

/-- C9 (amended): for every pixel whose density, the value `ray_march`
returned, is non-negative (it never exceeds 1), the 8-bit intensity that
`render_image` stores in the pixel's three bytes is `density * 255` truncated
(rounded down); in particular density `0.5` gives 127. -/
theorem C9_intensity_is_truncation (sqrt : α → α) (volume : Volume α) (image : Image)
    (x y : Nat) (hx : x < IMAGE_WIDTH) (hy : y < IMAGE_HEIGHT)
    (hd : 0 ≤ pixel_density sqrt volume x y) :
    pixel_density sqrt volume x y ≤ 1
      ∧ (∀ c, c < 3 → render_image sqrt volume image ((y * IMAGE_WIDTH + x) * 3 + c)
          = Int.toNat ⌊pixel_density sqrt volume x y * 255⌋)
      ∧ c_uchar ((1 / 2 : α) * 255) = 127 := by
  have hd1 : pixel_density sqrt volume x y ≤ 1 := by
    unfold pixel_density ray_march
    exact min_le_right _ _
  refine ⟨hd1, ?_, ?_⟩
  · intro c hc
    rw [render_image_pixel sqrt volume image x y c hx hy hc]
    unfold pixel_color
    exact c_uchar_of_unit _ hd hd1
  · have hfl2 : ⌊(1 / 2 : α) * 255⌋ = 127 := by
      rw [Int.floor_eq_iff]; norm_num
    rw [c_uchar_of_unit _ (by norm_num) (by norm_num), hfl2]
    rfl

theorem C9_intensity_is_truncation_witness :
    (256 < IMAGE_WIDTH) ∧ (256 < IMAGE_HEIGHT)
      ∧ 0 ≤ pixel_density Real.sqrt (sphere_volume : Volume ℝ) 256 256
      ∧ (∀ c, c < 3 → render_image Real.sqrt (sphere_volume : Volume ℝ) (fun _ => 0)
            ((256 * IMAGE_WIDTH + 256) * 3 + c)
          = Int.toNat ⌊pixel_density Real.sqrt (sphere_volume : Volume ℝ) 256 256 * 255⌋) :=
  ⟨by decide, by decide, by rw [pixel_density_centre]; norm_num,
    (C9_intensity_is_truncation Real.sqrt (sphere_volume : Volume ℝ) (fun _ => 0) 256 256
      (by decide) (by decide) (by rw [pixel_density_centre]; norm_num)).2.1⟩

/-- C10: for every pixel `(x, y)` of the `512 × 512` image, after `render_image`
the three bytes at offsets `(y * W + x) * 3`, `+ 1` and `+ 2` all hold that
pixel's intensity; these offsets lie in `[0, W * H * 3)`, the triples of distinct
pixels are disjoint, together they cover the whole buffer, and every byte of the
buffer is stored to exactly once (the buffer being the result of these stores). -/
theorem C10_pixel_bytes_written_once (sqrt : α → α) (volume : Volume α) (image : Image)
    (x y : Nat) (hx : x < IMAGE_WIDTH) (hy : y < IMAGE_HEIGHT) :
    (∀ c, c < 3 → render_image sqrt volume image ((y * IMAGE_WIDTH + x) * 3 + c)
        = pixel_color sqrt volume x y)
      ∧ (y * IMAGE_WIDTH + x) * 3 + 2 < IMAGE_WIDTH * IMAGE_HEIGHT * 3
      ∧ (∀ x1 y1 c c1, x1 < IMAGE_WIDTH → y1 < IMAGE_HEIGHT → c < 3 → c1 < 3 →
          (y1 * IMAGE_WIDTH + x1) * 3 + c1 = (y * IMAGE_WIDTH + x) * 3 + c → x1 = x ∧ y1 = y)
      ∧ (∀ o, o < IMAGE_WIDTH * IMAGE_HEIGHT * 3 → ∃ x1 y1 c, x1 < IMAGE_WIDTH
          ∧ y1 < IMAGE_HEIGHT ∧ c < 3 ∧ o = (y1 * IMAGE_WIDTH + x1) * 3 + c)
      ∧ render_image sqrt volume image = apply_writes image (render_writes sqrt volume)
      ∧ (∀ o, o < IMAGE_WIDTH * IMAGE_HEIGHT * 3 →
          ((render_writes sqrt volume).map Prod.fst).count o = 1)
      ∧ (∀ o, IMAGE_WIDTH * IMAGE_HEIGHT * 3 ≤ o →
          ((render_writes sqrt volume).map Prod.fst).count o = 0) := by
  refine ⟨fun c hc => render_image_pixel sqrt volume image x y c hx hy hc, ?_, ?_, ?_,
    render_image_eq_apply_writes sqrt volume image, ?_, ?_⟩
  · unfold IMAGE_WIDTH IMAGE_HEIGHT at *
    omega
  · intro x1 y1 c c1 hx1 hy1 hc hc1 h
    unfold IMAGE_WIDTH IMAGE_HEIGHT at *
    omega
  · intro o ho
    unfold IMAGE_WIDTH IMAGE_HEIGHT at *
    exact ⟨o / 3 % 512, o / 3 / 512, o % 3, by omega, by omega, by omega, by omega⟩
  · intro o ho
    rw [render_writes_offsets]
    exact List.count_eq_one_of_mem (List.nodup_range _) (List.mem_range.mpr ho)
  · intro o ho
    rw [render_writes_offsets]
    exact List.count_eq_zero_of_not_mem (fun h => by
      have := List.mem_range.mp h
      omega)

theorem C10_pixel_bytes_written_once_witness :
    (511 < IMAGE_WIDTH) ∧ (511 < IMAGE_HEIGHT)
      ∧ (∀ c, c < 3 → render_image Real.sqrt (sphere_volume : Volume ℝ) (fun _ => 0)
            ((511 * IMAGE_WIDTH + 511) * 3 + c)
          = pixel_color Real.sqrt (sphere_volume : Volume ℝ) 511 511)
      ∧ (511 * IMAGE_WIDTH + 511) * 3 + 2 < IMAGE_WIDTH * IMAGE_HEIGHT * 3 :=
  ⟨by decide, by decide,
    (C10_pixel_bytes_written_once Real.sqrt (sphere_volume : Volume ℝ) (fun _ => 0) 511 511
      (by decide) (by decide)).1,
    (C10_pixel_bytes_written_once Real.sqrt (sphere_volume : Volume ℝ) (fun _ => 0) 511 511
      (by decide) (by decide)).2.1⟩

/-! ## The ray direction of a pixel -/

/-- C11: for every pixel `(x, y)`, the direction `render_image` passes to
`ray_march` is `(x/W - 0.5, y/H - 0.5, 1.0)` divided by its L2 norm; the norm is
at least 1, so the division is never by zero, and over the reals the passed
direction has squared length exactly 1. -/
theorem C11_direction_is_unit (x y : Nat) :
    1 ≤ Real.sqrt (norm_sq (ndc_direction x y : ℝ × ℝ × ℝ))
      ∧ pixel_direction Real.sqrt x y =
        ((ndc_direction x y : ℝ × ℝ × ℝ).1 / Real.sqrt (norm_sq (ndc_direction x y : ℝ × ℝ × ℝ)),
          (ndc_direction x y : ℝ × ℝ × ℝ).2.1
            / Real.sqrt (norm_sq (ndc_direction x y : ℝ × ℝ × ℝ)),
          (ndc_direction x y : ℝ × ℝ × ℝ).2.2
            / Real.sqrt (norm_sq (ndc_direction x y : ℝ × ℝ × ℝ)))
      ∧ norm_sq (pixel_direction Real.sqrt x y) = 1 := by
  have hs : (1 : ℝ) ≤ norm_sq (ndc_direction x y : ℝ × ℝ × ℝ) := by
    simp only [norm_sq, ndc_direction]
    have h1 := mul_self_nonneg ((x : ℝ) / (IMAGE_WIDTH : ℝ) - 1 / 2)
    have h2 := mul_self_nonneg ((y : ℝ) / (IMAGE_HEIGHT : ℝ) - 1 / 2)
    linarith
  have hn : 1 ≤ Real.sqrt (norm_sq (ndc_direction x y : ℝ × ℝ × ℝ)) := by
    rw [Real.one_le_sqrt]; exact hs
  have hd : pixel_direction Real.sqrt x y =
      ((ndc_direction x y : ℝ × ℝ × ℝ).1 / Real.sqrt (norm_sq (ndc_direction x y : ℝ × ℝ × ℝ)),
        (ndc_direction x y : ℝ × ℝ × ℝ).2.1
          / Real.sqrt (norm_sq (ndc_direction x y : ℝ × ℝ × ℝ)),
        (ndc_direction x y : ℝ × ℝ × ℝ).2.2
          / Real.sqrt (norm_sq (ndc_direction x y : ℝ × ℝ × ℝ))) := rfl
  refine ⟨hn, hd, ?_⟩
  have hpos : (0 : ℝ) < Real.sqrt (norm_sq (ndc_direction x y : ℝ × ℝ × ℝ)) :=
    lt_of_lt_of_le one_pos hn
  have hsq := Real.mul_self_sqrt (le_trans zero_le_one hs)
  rw [hd]
  generalize Real.sqrt (norm_sq (ndc_direction x y : ℝ × ℝ × ℝ)) = n at hpos hsq
  generalize (ndc_direction x y : ℝ × ℝ × ℝ) = v at hsq
  obtain ⟨a, b, c⟩ := v
  simp only [norm_sq] at hsq ⊢
  have hn0 : n ≠ 0 := hpos.ne'
  field_simp
  linarith

/-! ## The accumulator during the march -/

/-- One more allowed iteration either changes nothing (the loop had already
left) or adds exactly one contribution, sampled at the position reached. -/
theorem march_loop_succ (volume : Volume α) (dir_x dir_y dir_z : α) (k : Nat) :
    ∀ s : MarchState α,
      march_loop volume dir_x dir_y dir_z (k + 1) s = march_loop volume dir_x dir_y dir_z k s
      ∨ (march_loop volume dir_x dir_y dir_z (k + 1) s).density
          = (march_loop volume dir_x dir_y dir_z k s).density
            + sample_volume volume (march_loop volume dir_x dir_y dir_z k s).pos_x
                (march_loop volume dir_x dir_y dir_z k s).pos_y
                (march_loop volume dir_x dir_y dir_z k s).pos_z * STEP_SIZE := by
  induction k with
  | zero =>
    intro s
    right
    simp only [march_loop]
    split_ifs <;> rfl
  | succ k ih =>
    intro s
    by_cases hout : out_of_bounds (s.pos_x + dir_x * STEP_SIZE) (s.pos_y + dir_y * STEP_SIZE)
        (s.pos_z + dir_z * STEP_SIZE)
    · left
      have h1 : ∀ n, march_loop volume dir_x dir_y dir_z (n + 1) s
          = ⟨s.pos_x + dir_x * STEP_SIZE, s.pos_y + dir_y * STEP_SIZE,
              s.pos_z + dir_z * STEP_SIZE,
              s.density + sample_volume volume s.pos_x s.pos_y s.pos_z * STEP_SIZE,
              s.step + 1⟩ := by
        intro n
        rw [march_loop]
        simp only [if_pos hout]
      rw [h1 (k + 1), h1 k]
    · have h1 : ∀ n, march_loop volume dir_x dir_y dir_z (n + 1) s
          = march_loop volume dir_x dir_y dir_z n
              ⟨s.pos_x + dir_x * STEP_SIZE, s.pos_y + dir_y * STEP_SIZE,
                s.pos_z + dir_z * STEP_SIZE,
                s.density + sample_volume volume s.pos_x s.pos_y s.pos_z * STEP_SIZE,
                s.step + 1⟩ := by
        intro n
        rw [march_loop]
        simp only [if_neg hout]
      rw [h1 (k + 1), h1 k]
      exact ih _

theorem march_loop_density_mono (volume : Volume α)
    (hv : ∀ i j k, i < VOLUME_SIZE → j < VOLUME_SIZE → k < VOLUME_SIZE → 0 ≤ volume i j k)
    (dir_x dir_y dir_z : α) (k : Nat) (s : MarchState α) :
    (march_loop volume dir_x dir_y dir_z k s).density
      ≤ (march_loop volume dir_x dir_y dir_z (k + 1) s).density := by
  rcases march_loop_succ volume dir_x dir_y dir_z k s with h | h
  · rw [h]
  · rw [h]
    exact le_add_of_nonneg_right
      (mul_nonneg (sample_volume_nonneg volume hv _ _ _) STEP_SIZE_pos.le)

/-- Over a field whose sampler always answers 0 the accumulator never moves. -/
theorem march_loop_density_of_zero (volume : Volume α)
    (hz : ∀ x y z : α, sample_volume volume x y z = 0) (dir_x dir_y dir_z : α) (n : Nat) :
    ∀ s : MarchState α, (march_loop volume dir_x dir_y dir_z n s).density = s.density := by
  induction n with
  | zero => intro s; rfl
  | succ n ih =>
    intro s
    simp only [march_loop]
    split_ifs with h
    · simp [hz]
    · rw [ih]
      simp [hz]

theorem sample_volume_of_zero_cells (volume : Volume α)
    (hz : ∀ i j k, i < VOLUME_SIZE → j < VOLUME_SIZE → k < VOLUME_SIZE → volume i j k = 0)
    (x y z : α) : sample_volume volume x y z = 0 := by
  unfold sample_volume
  simp only
  split_ifs with h
  · rfl
  · apply hz <;> omega

/-- C12: during a `ray_march` over a field whose cells are all non-negative the
accumulated density starts at 0 and is non-decreasing: for every `k` the
accumulator after step `k + 1` is at least the accumulator after step `k` (it
either stays, the loop having left, or grows by the sample taken at the
position reached); the result is the accumulator after `MAX_STEPS`, clamped. -/
theorem C12_accumulator_monotone (volume : Volume α)
    (start_x start_y start_z dir_x dir_y dir_z : α)
    (hv : ∀ i j k, i < VOLUME_SIZE → j < VOLUME_SIZE → k < VOLUME_SIZE → 0 ≤ volume i j k) :
    density_after volume start_x start_y start_z dir_x dir_y dir_z 0 = 0
      ∧ (∀ k, density_after volume start_x start_y start_z dir_x dir_y dir_z k
          ≤ density_after volume start_x start_y start_z dir_x dir_y dir_z (k + 1))
      ∧ (∀ k, march_loop volume dir_x dir_y dir_z (k + 1) ⟨start_x, start_y, start_z, 0, 0⟩
            = march_loop volume dir_x dir_y dir_z k ⟨start_x, start_y, start_z, 0, 0⟩
          ∨ density_after volume start_x start_y start_z dir_x dir_y dir_z (k + 1)
            = density_after volume start_x start_y start_z dir_x dir_y dir_z k
              + sample_volume volume
                  (march_loop volume dir_x dir_y dir_z k ⟨start_x, start_y, start_z, 0, 0⟩).pos_x
                  (march_loop volume dir_x dir_y dir_z k ⟨start_x, start_y, start_z, 0, 0⟩).pos_y
                  (march_loop volume dir_x dir_y dir_z k ⟨start_x, start_y, start_z, 0, 0⟩).pos_z
                * STEP_SIZE)
      ∧ ray_march volume start_x start_y start_z dir_x dir_y dir_z
          = min (density_after volume start_x start_y start_z dir_x dir_y dir_z MAX_STEPS) 1 :=
  ⟨rfl, fun k => march_loop_density_mono volume hv dir_x dir_y dir_z k _,
    fun k => march_loop_succ volume dir_x dir_y dir_z k _, rfl⟩

theorem C12_accumulator_monotone_witness :
    (∀ i j k, i < VOLUME_SIZE → j < VOLUME_SIZE → k < VOLUME_SIZE →
        0 ≤ (sphere_volume : Volume ℚ) i j k)
      ∧ density_after (sphere_volume : Volume ℚ) (1 / 2) (1 / 2) 0 0 0 1 0 = 0
      ∧ (∀ k, density_after (sphere_volume : Volume ℚ) (1 / 2) (1 / 2) 0 0 0 1 k
          ≤ density_after (sphere_volume : Volume ℚ) (1 / 2) (1 / 2) 0 0 0 1 (k + 1)) := by
  have hv : ∀ i j k, i < VOLUME_SIZE → j < VOLUME_SIZE → k < VOLUME_SIZE →
      0 ≤ (sphere_volume : Volume ℚ) i j k := by
    intro i j k hi hj hk
    rw [sphere_volume_cell i j k hi hj hk]
    split_ifs <;> norm_num
  exact ⟨hv, (C12_accumulator_monotone (sphere_volume : Volume ℚ) (1 / 2) (1 / 2) 0 0 0 1 hv).1,
    (C12_accumulator_monotone (sphere_volume : Volume ℚ) (1 / 2) (1 / 2) 0 0 0 1 hv).2.1⟩

/-- C13: for every origin and every direction, a ray marched through a field
all of whose cells are 0 returns exactly 0. -/
theorem C13_zero_field_gives_zero (volume : Volume α)
    (start_x start_y start_z dir_x dir_y dir_z : α)
    (hz : ∀ i j k, i < VOLUME_SIZE → j < VOLUME_SIZE → k < VOLUME_SIZE → volume i j k = 0) :
    ray_march volume start_x start_y start_z dir_x dir_y dir_z = 0 := by
  unfold ray_march march_final
  rw [march_loop_density_of_zero volume (sample_volume_of_zero_cells volume hz)]
  exact min_eq_left zero_le_one

theorem C13_zero_field_gives_zero_witness :
    (∀ i j k, i < VOLUME_SIZE → j < VOLUME_SIZE → k < VOLUME_SIZE →
        (zero_volume : Volume ℚ) i j k = 0)
      ∧ ray_march (zero_volume : Volume ℚ) (1 / 2) (3 / 10) 0 (1 / 3) (-2 / 3) (2 / 3) = 0 :=
  ⟨fun _ _ _ _ _ _ => rfl,
    C13_zero_field_gives_zero (zero_volume : Volume ℚ) (1 / 2) (3 / 10) 0 (1 / 3) (-2 / 3) (2 / 3)
      (fun _ _ _ _ _ _ => rfl)⟩

/-! ## The number of samples of a ray -/

omit [FloorRing α] in
/-- The defining properties of `exit_step`: it lies in `1 .. MAX_STEPS`, no
earlier advanced position is out of bounds, and either the position it names is
out of bounds or no advanced position up to `MAX_STEPS` is. -/
theorem exit_step_spec (start_x start_y start_z dir_x dir_y dir_z : α) :
    1 ≤ exit_step start_x start_y start_z dir_x dir_y dir_z
      ∧ exit_step start_x start_y start_z dir_x dir_y dir_z ≤ MAX_STEPS
      ∧ (∀ j, 1 ≤ j → j < exit_step start_x start_y start_z dir_x dir_y dir_z →
          ¬ exits_at start_x start_y start_z dir_x dir_y dir_z j)
      ∧ (exits_at start_x start_y start_z dir_x dir_y dir_z
            (exit_step start_x start_y start_z dir_x dir_y dir_z)
          ∨ (exit_step start_x start_y start_z dir_x dir_y dir_z = MAX_STEPS
            ∧ ∀ j, 1 ≤ j → j ≤ MAX_STEPS →
              ¬ exits_at start_x start_y start_z dir_x dir_y dir_z j)) := by
  unfold exit_step
  split_ifs with h
  · obtain ⟨hlt, h1, hex⟩ := Nat.find_spec h
    refine ⟨h1, by omega, ?_, Or.inl hex⟩
    intro j hj1 hjlt hexj
    exact Nat.find_min h hjlt ⟨by omega, hj1, hexj⟩
  · refine ⟨by decide, le_refl _, ?_, Or.inr ⟨rfl, ?_⟩⟩
    · intro j hj1 hjlt hexj
      exact h ⟨j, by omega, hj1, hexj⟩
    · intro j hj1 hjle hexj
      exact h ⟨j, by omega, hj1, hexj⟩

/-- The loop of `ray_march` executes `exit_step` bodies. -/
theorem march_final_at_exit_step (volume : Volume α)
    (start_x start_y start_z dir_x dir_y dir_z : α) :
    march_final volume start_x start_y start_z dir_x dir_y dir_z =
      ⟨ray_point start_x dir_x (exit_step start_x start_y start_z dir_x dir_y dir_z),
        ray_point start_y dir_y (exit_step start_x start_y start_z dir_x dir_y dir_z),
        ray_point start_z dir_z (exit_step start_x start_y start_z dir_x dir_y dir_z),
        march_sum volume start_x start_y start_z dir_x dir_y dir_z
          (exit_step start_x start_y start_z dir_x dir_y dir_z),
        exit_step start_x start_y start_z dir_x dir_y dir_z⟩ := by
  obtain ⟨h1, h2, h3, h4⟩ := exit_step_spec start_x start_y start_z dir_x dir_y dir_z
  apply march_final_eq volume start_x start_y start_z dir_x dir_y dir_z _ h2
  · intro k hk1 hk2
    exact h3 k hk1 hk2
  · rcases h4 with h | ⟨h, _⟩
    · exact Or.inr ⟨h1, h⟩
    · exact Or.inl h

/-- C15: for every field, origin and direction, `ray_march` is
`min(Σ_{k < m} sample_volume(o + k * STEP_SIZE * d) * STEP_SIZE, 1)` where `m` is
the least `j` in `1 .. 256` such that `o + j * STEP_SIZE * d` has a component
outside `[0, N)`, or 256 if there is none; the loop executes exactly `m`
bodies, so nothing is accumulated after the first out-of-bounds position. -/
theorem C15_ray_march_sums_to_exit (volume : Volume α)
    (start_x start_y start_z dir_x dir_y dir_z : α) :
    1 ≤ exit_step start_x start_y start_z dir_x dir_y dir_z
      ∧ exit_step start_x start_y start_z dir_x dir_y dir_z ≤ MAX_STEPS
      ∧ (∀ j, 1 ≤ j → j < exit_step start_x start_y start_z dir_x dir_y dir_z →
          ¬ out_of_bounds (start_x + (j : α) * (dir_x * STEP_SIZE))
            (start_y + (j : α) * (dir_y * STEP_SIZE)) (start_z + (j : α) * (dir_z * STEP_SIZE)))
      ∧ (out_of_bounds
            (start_x + (exit_step start_x start_y start_z dir_x dir_y dir_z : α)
              * (dir_x * STEP_SIZE))
            (start_y + (exit_step start_x start_y start_z dir_x dir_y dir_z : α)
              * (dir_y * STEP_SIZE))
            (start_z + (exit_step start_x start_y start_z dir_x dir_y dir_z : α)
              * (dir_z * STEP_SIZE))
          ∨ (exit_step start_x start_y start_z dir_x dir_y dir_z = MAX_STEPS
            ∧ ∀ j, 1 ≤ j → j ≤ MAX_STEPS →
              ¬ out_of_bounds (start_x + (j : α) * (dir_x * STEP_SIZE))
                (start_y + (j : α) * (dir_y * STEP_SIZE))
                (start_z + (j : α) * (dir_z * STEP_SIZE))))
      ∧ (march_final volume start_x start_y start_z dir_x dir_y dir_z).step
          = exit_step start_x start_y start_z dir_x dir_y dir_z
      ∧ ray_march volume start_x start_y start_z dir_x dir_y dir_z
          = min ((Finset.range (exit_step start_x start_y start_z dir_x dir_y dir_z)).sum
              (fun k => sample_volume volume (start_x + (k : α) * (dir_x * STEP_SIZE))
                (start_y + (k : α) * (dir_y * STEP_SIZE))
                (start_z + (k : α) * (dir_z * STEP_SIZE)) * STEP_SIZE)) 1 := by
  obtain ⟨h1, h2, h3, h4⟩ := exit_step_spec start_x start_y start_z dir_x dir_y dir_z
  refine ⟨h1, h2, h3, h4, ?_, ?_⟩
  · rw [march_final_at_exit_step]
  · unfold ray_march
    rw [march_final_at_exit_step]
    simp only [march_sum, ray_point]

/-! ## Safety of the array read -/

/-- C16: for all coordinates, `sample_volume` never reads the grid out of range:
the read `volume[ix][iy][iz]` is reached only with `0 ≤ ix, iy, iz < VOLUME_SIZE`,
so with a checked read the failure branch is unreachable and the checked
sampler returns the value of `sample_volume`.  (The `int` of the embedding is
unbounded, so every scaled value fits.) -/
theorem C16_sample_read_in_range (volume : Volume α) (x y z : α) :
    sample_volume_checked volume x y z = some (sample_volume volume x y z)
      ∧ sample_volume_checked volume x y z ≠ none
      ∧ (¬ (c_trunc (x * (VOLUME_SIZE : α)) < 0 ∨ c_trunc (y * (VOLUME_SIZE : α)) < 0
            ∨ c_trunc (z * (VOLUME_SIZE : α)) < 0
            ∨ c_trunc (x * (VOLUME_SIZE : α)) ≥ (VOLUME_SIZE : Int)
            ∨ c_trunc (y * (VOLUME_SIZE : α)) ≥ (VOLUME_SIZE : Int)
            ∨ c_trunc (z * (VOLUME_SIZE : α)) ≥ (VOLUME_SIZE : Int)) →
          read_cell volume (c_trunc (x * (VOLUME_SIZE : α))) (c_trunc (y * (VOLUME_SIZE : α)))
              (c_trunc (z * (VOLUME_SIZE : α)))
            = some (volume (c_trunc (x * (VOLUME_SIZE : α))).toNat
                (c_trunc (y * (VOLUME_SIZE : α))).toNat (c_trunc (z * (VOLUME_SIZE : α))).toNat)
          ∧ (c_trunc (x * (VOLUME_SIZE : α))).toNat < VOLUME_SIZE
          ∧ (c_trunc (y * (VOLUME_SIZE : α))).toNat < VOLUME_SIZE
          ∧ (c_trunc (z * (VOLUME_SIZE : α))).toNat < VOLUME_SIZE) := by
  have hread : ¬ (c_trunc (x * (VOLUME_SIZE : α)) < 0 ∨ c_trunc (y * (VOLUME_SIZE : α)) < 0
        ∨ c_trunc (z * (VOLUME_SIZE : α)) < 0
        ∨ c_trunc (x * (VOLUME_SIZE : α)) ≥ (VOLUME_SIZE : Int)
        ∨ c_trunc (y * (VOLUME_SIZE : α)) ≥ (VOLUME_SIZE : Int)
        ∨ c_trunc (z * (VOLUME_SIZE : α)) ≥ (VOLUME_SIZE : Int)) →
      read_cell volume (c_trunc (x * (VOLUME_SIZE : α))) (c_trunc (y * (VOLUME_SIZE : α)))
          (c_trunc (z * (VOLUME_SIZE : α)))
        = some (volume (c_trunc (x * (VOLUME_SIZE : α))).toNat
            (c_trunc (y * (VOLUME_SIZE : α))).toNat (c_trunc (z * (VOLUME_SIZE : α))).toNat) := by
    intro h
    unfold read_cell
    rw [if_pos (by omega)]
  have heq : sample_volume_checked volume x y z = some (sample_volume volume x y z) := by
    unfold sample_volume_checked sample_volume
    simp only
    split_ifs with h
    · rfl
    · exact hread h
  refine ⟨heq, by rw [heq]; exact Option.some_ne_none _, fun h => ⟨hread h, ?_, ?_, ?_⟩⟩ <;> omega

/-! ## The conversion of a density to a byte -/

/-- C18: for every density `d` with `0 ≤ d ≤ 1`, the truncation of `d * 255` lies
in `[0, 255]`, so the conversion to `unsigned char` does not wrap (the byte is
the truncation itself); the byte is 255 only when `d = 1` (and is 255 then), and
it is 0 whenever `d < 1/255`. -/
theorem C18_intensity_in_byte_range (d : α) (h0 : 0 ≤ d) (h1 : d ≤ 1) :
    0 ≤ c_trunc (d * 255) ∧ c_trunc (d * 255) ≤ 255
      ∧ ((c_uchar (d * 255) : Nat) : Int) = c_trunc (d * 255)
      ∧ (c_uchar (d * 255) = 255 ↔ d = 1)
      ∧ (d < 1 / 255 → c_uchar (d * 255) = 0) := by
  have hn : 0 ≤ d * 255 := by positivity
  have ht : c_trunc (d * 255) = ⌊d * 255⌋ := c_trunc_of_nonneg hn
  have hf0 : 0 ≤ ⌊d * 255⌋ := Int.floor_nonneg.mpr hn
  have hf1 : ⌊d * 255⌋ ≤ 255 := by
    have : ⌊d * 255⌋ < 255 + 1 := by
      rw [Int.floor_lt]
      have : ((255 + 1 : Int) : α) = 256 := by norm_num
      rw [this]
      linarith
    omega
  have hu : ((c_uchar (d * 255) : Nat) : Int) = ⌊d * 255⌋ := by
    rw [c_uchar_of_unit d h0 h1, Int.toNat_of_nonneg hf0]
  refine ⟨by rw [ht]; exact hf0, by rw [ht]; exact hf1, by rw [hu, ht], ?_, ?_⟩
  · constructor
    · intro h
      have h255 : ⌊d * 255⌋ = 255 := by rw [← hu, h]; rfl
      have hle : ((255 : Int) : α) ≤ d * 255 := by
        rw [← Int.le_floor, h255]
      have : ((255 : Int) : α) = 255 := by norm_num
      rw [this] at hle
      linarith
    · intro h
      subst h
      have h255 : ⌊(1 : α) * 255⌋ = 255 := by
        rw [Int.floor_eq_iff]; norm_num
      have := hu
      rw [h255] at this
      exact_mod_cast this
  · intro hlt
    have hz : ⌊d * 255⌋ = 0 := by
      rw [Int.floor_eq_iff]
      refine ⟨by simpa using hn, ?_⟩
      have : d * 255 < 1 := by
        have := mul_lt_mul_of_pos_right hlt (show (0 : α) < 255 by norm_num)
        simpa using this
      simpa using this
    have := hu
    rw [hz] at this
    exact_mod_cast this

theorem C18_intensity_in_byte_range_witness :
    (0 : ℚ) ≤ 32 / 100 ∧ (32 / 100 : ℚ) ≤ 1
      ∧ 0 ≤ c_trunc ((32 / 100 : ℚ) * 255) ∧ c_trunc ((32 / 100 : ℚ) * 255) ≤ 255
      ∧ ((c_uchar ((32 / 100 : ℚ) * 255) : Nat) : Int) = c_trunc ((32 / 100 : ℚ) * 255) :=
  ⟨by norm_num, by norm_num,
    (C18_intensity_in_byte_range (32 / 100 : ℚ) (by norm_num) (by norm_num)).1,
    (C18_intensity_in_byte_range (32 / 100 : ℚ) (by norm_num) (by norm_num)).2.1,
    (C18_intensity_in_byte_range (32 / 100 : ℚ) (by norm_num) (by norm_num)).2.2.1⟩

/-! ## Order independence of rendering -/

theorem render_in_order_eq (sqrt : α → α) (volume : Volume α) (order : List (Nat × Nat)) :
    ∀ image : Image, render_in_order sqrt order ⟨volume, image⟩
      = ⟨volume, apply_writes image
          (order.flatMap (fun p => pixel_writes sqrt volume p.1 p.2))⟩ := by
  induction order with
  | nil => intro image; rfl
  | cons p order ih =>
    intro image
    have hstep : render_in_order sqrt (p :: order) ⟨volume, image⟩
        = render_in_order sqrt order
            ⟨volume, apply_writes image (pixel_writes sqrt volume p.1 p.2)⟩ := rfl
    rw [hstep, ih, List.flatMap_cons, apply_writes_append]

theorem render_writes_eq_flatMap (sqrt : α → α) (volume : Volume α) :
    render_writes sqrt volume
      = row_major_pixels.flatMap (fun p => pixel_writes sqrt volume p.1 p.2) := by
  have hgen : ∀ (ly lx : List Nat),
      ly.flatMap (fun y => lx.flatMap (fun x => pixel_writes sqrt volume y x))
        = (ly.flatMap (fun y => lx.map (fun x => (y, x)))).flatMap
            (fun p => pixel_writes sqrt volume p.1 p.2) := by
    intro ly lx
    simp only [List.flatMap_assoc, List.flatMap_map]
  exact hgen _ _

/-- Two store sequences that are permutations of each other, and in which no
offset is stored to twice, leave the same buffer. -/
theorem apply_writes_perm (image : Image) (ws1 ws2 : List (Nat × Nat))
    (hperm : ws1.Perm ws2) (hnd : (ws2.map Prod.fst).Nodup) :
    apply_writes image ws1 = apply_writes image ws2 := by
  have hnd1 : (ws1.map Prod.fst).Nodup := ((hperm.map Prod.fst).nodup_iff).mpr hnd
  funext o
  by_cases ho : o ∈ ws2.map Prod.fst
  · obtain ⟨w, hw, rfl⟩ := List.mem_map.mp ho
    have hw2 : (w.1, w.2) ∈ ws2 := hw
    have hw1 : (w.1, w.2) ∈ ws1 := hperm.mem_iff.mpr hw
    rw [apply_writes_of_mem w.1 w.2 ws1 image hnd1 hw1,
      apply_writes_of_mem w.1 w.2 ws2 image hnd hw2]
  · have ho1 : o ∉ ws1.map Prod.fst := fun h => ho (((hperm.map Prod.fst).mem_iff).mp h)
    rw [apply_writes_of_not_mem o ws1 image ho1, apply_writes_of_not_mem o ws2 image ho]

/-- Processing the pixels in any permutation of the loop order leaves the grid
as it was and the buffer as `render_image` leaves it. -/
theorem render_in_order_perm (sqrt : α → α) (volume : Volume α) (image : Image)
    (order : List (Nat × Nat)) (hperm : order.Perm row_major_pixels) :
    render_in_order sqrt order ⟨volume, image⟩ = ⟨volume, render_image sqrt volume image⟩ := by
  have hw : apply_writes image (order.flatMap (fun p => pixel_writes sqrt volume p.1 p.2))
      = apply_writes image (render_writes sqrt volume) := by
    apply apply_writes_perm
    · rw [render_writes_eq_flatMap]
      exact hperm.flatMap_right _
    · exact render_writes_nodup sqrt volume
  rw [render_in_order_eq, render_image_eq_apply_writes, hw]

/-- C14: rendering is order-independent: processing the `W * H` pixels in any
permutation of the row-major order, each with the per-pixel step of
`render_image`, leaves the field unchanged and a buffer identical to the one
`render_image` produces sequentially, in which the three bytes of each pixel
are the colour computed from the field and `(x, y)` alone. -/
theorem C14_render_order_independent (sqrt : α → α) (volume : Volume α) (image : Image)
    (order : List (Nat × Nat)) (hperm : order.Perm row_major_pixels) :
    render_in_order sqrt order ⟨volume, image⟩ = ⟨volume, render_image sqrt volume image⟩
      ∧ (render_in_order sqrt order ⟨volume, image⟩).volume = volume
      ∧ (render_in_order sqrt order ⟨volume, image⟩).image = render_image sqrt volume image
      ∧ (render_in_order sqrt row_major_pixels ⟨volume, image⟩).image
          = render_image sqrt volume image
      ∧ (∀ x y c, x < IMAGE_WIDTH → y < IMAGE_HEIGHT → c < 3 →
          (render_in_order sqrt order ⟨volume, image⟩).image ((y * IMAGE_WIDTH + x) * 3 + c)
            = pixel_color sqrt volume x y) := by
  have h := render_in_order_perm sqrt volume image order hperm
  have h0 := render_in_order_perm sqrt volume image row_major_pixels (List.Perm.refl _)
  have hi : (render_in_order sqrt order ⟨volume, image⟩).image
      = render_image sqrt volume image := by
    simp only [h]
  have hv : (render_in_order sqrt order ⟨volume, image⟩).volume = volume := by
    simp only [h]
  have hi0 : (render_in_order sqrt row_major_pixels ⟨volume, image⟩).image
      = render_image sqrt volume image := by
    simp only [h0]
  refine ⟨h, hv, hi, hi0, ?_⟩
  intro x y c hx hy hc
  rw [hi]
  exact render_image_pixel sqrt volume image x y c hx hy hc

theorem C14_render_order_independent_witness :
    (row_major_pixels.reverse).Perm row_major_pixels
      ∧ render_in_order Real.sqrt row_major_pixels.reverse
          ⟨(sphere_volume : Volume ℝ), fun _ => 0⟩
        = ⟨(sphere_volume : Volume ℝ),
            render_image Real.sqrt (sphere_volume : Volume ℝ) (fun _ => 0)⟩ :=
  ⟨List.reverse_perm _,
    (C14_render_order_independent Real.sqrt (sphere_volume : Volume ℝ) (fun _ => 0)
      row_major_pixels.reverse (List.reverse_perm _)).1⟩

/-! ## The early exit over the sphere field -/

theorem center_dist_sq_of_zero (a b c : Nat) (h : a = 0 ∨ b = 0 ∨ c = 0) :
    4096 ≤ center_dist_sq a b c := by
  unfold center_dist_sq
  have h1 := mul_self_nonneg ((a : Int) - 64)
  have h2 := mul_self_nonneg ((b : Int) - 64)
  have h3 := mul_self_nonneg ((c : Int) - 64)
  rcases h with rfl | rfl | rfl
  · have : (((0 : Nat) : Int) - 64) * (((0 : Nat) : Int) - 64) = 4096 := by norm_num
    rw [this]; linarith
  · have : (((0 : Nat) : Int) - 64) * (((0 : Nat) : Int) - 64) = 4096 := by norm_num
    rw [this]; linarith
  · have : (((0 : Nat) : Int) - 64) * (((0 : Nat) : Int) - 64) = 4096 := by norm_num
    rw [this]; linarith

/-- Cells of the sphere field with index 0 on some axis hold 0, so a sample whose
index is `≤ 0` on some axis is 0. -/
theorem sample_sphere_of_low_index (x y z : α)
    (h : c_trunc (x * (VOLUME_SIZE : α)) ≤ 0 ∨ c_trunc (y * (VOLUME_SIZE : α)) ≤ 0
      ∨ c_trunc (z * (VOLUME_SIZE : α)) ≤ 0) :
    sample_volume (sphere_volume : Volume α) x y z = 0 := by
  unfold sample_volume
  simp only
  split_ifs with hg
  · rfl
  · rw [sphere_volume_cell _ _ _ (by omega) (by omega) (by omega)]
    have hz : (c_trunc (x * (VOLUME_SIZE : α))).toNat = 0
        ∨ (c_trunc (y * (VOLUME_SIZE : α))).toNat = 0
        ∨ (c_trunc (z * (VOLUME_SIZE : α))).toNat = 0 := by omega
    have := center_dist_sq_of_zero _ _ _ hz
    rw [if_neg (by omega)]

theorem c_trunc_scaled_of_neg (c : α) (h : c < 0) : c_trunc (c * (VOLUME_SIZE : α)) ≤ 0 := by
  have hN : (0 : α) < (VOLUME_SIZE : α) := by norm_num [VOLUME_SIZE]
  have hneg : c * (VOLUME_SIZE : α) < 0 := mul_neg_of_neg_of_pos h hN
  rw [c_trunc_of_neg hneg, Int.ceil_le]
  simpa using hneg.le

/-- A position outside the marcher's bounds samples 0 in the sphere field. -/
theorem sample_sphere_of_out_of_bounds (x y z : α) (h : out_of_bounds x y z) :
    sample_volume (sphere_volume : Volume α) x y z = 0 := by
  have hbig : ∀ c : α, c ≥ (VOLUME_SIZE : α) → (c_trunc (c * (VOLUME_SIZE : α)) < 0
      ∨ c_trunc (c * (VOLUME_SIZE : α)) ≥ (VOLUME_SIZE : Int)) := by
    intro c hc
    rw [c_trunc_scaled_outside_iff]
    right
    have : (1 : α) ≤ (VOLUME_SIZE : α) := by norm_num [VOLUME_SIZE]
    linarith
  unfold out_of_bounds at h
  rcases h with h | h | h | h | h | h
  · exact sample_sphere_of_low_index x y z (Or.inl (c_trunc_scaled_of_neg x h))
  · exact sample_volume_of_axis_outside _ x y z ⟨x, by simp, hbig x h⟩
  · exact sample_sphere_of_low_index x y z (Or.inr (Or.inl (c_trunc_scaled_of_neg y h)))
  · exact sample_volume_of_axis_outside _ x y z ⟨y, by simp, hbig y h⟩
  · exact sample_sphere_of_low_index x y z (Or.inr (Or.inr (c_trunc_scaled_of_neg z h)))
  · exact sample_volume_of_axis_outside _ x y z ⟨z, by simp, hbig z h⟩

omit [FloorRing α] in
/-- A component that starts inside `[0, N)` and has left it after `m` advances is
still outside, on the same side, after `k ≥ m` advances. -/
theorem ray_point_stays_out (c0 d : α) (m k : Nat) (h0 : 0 ≤ c0) (h1 : c0 < (VOLUME_SIZE : α))
    (hmk : m ≤ k) :
    (ray_point c0 d m < 0 → ray_point c0 d k < 0)
      ∧ (ray_point c0 d m ≥ (VOLUME_SIZE : α) → ray_point c0 d k ≥ (VOLUME_SIZE : α)) := by
  unfold ray_point
  have hk : (m : α) ≤ (k : α) := by exact_mod_cast hmk
  have hm0 : (0 : α) ≤ (m : α) := Nat.cast_nonneg m
  constructor
  · intro h
    have he : d * STEP_SIZE < 0 := by
      by_contra hne
      have := mul_nonneg hm0 (not_lt.mp hne)
      linarith
    have := mul_le_mul_of_nonpos_right hk he.le
    linarith
  · intro h
    have he : 0 < d * STEP_SIZE := by
      by_contra hne
      have := mul_nonpos_of_nonneg_of_nonpos hm0 (not_lt.mp hne)
      linarith
    have := mul_le_mul_of_nonneg_right hk he.le
    linarith

omit [FloorRing α] in
theorem exits_at_mono (start_x start_y start_z dir_x dir_y dir_z : α) (m k : Nat)
    (h : ¬ out_of_bounds start_x start_y start_z) (hmk : m ≤ k)
    (hm : exits_at start_x start_y start_z dir_x dir_y dir_z m) :
    exits_at start_x start_y start_z dir_x dir_y dir_z k := by
  unfold out_of_bounds at h
  simp only [not_or, not_lt, ge_iff_le, not_le] at h
  obtain ⟨hx0, hx1, hy0, hy1, hz0, hz1⟩ := h
  have hx := ray_point_stays_out start_x dir_x m k hx0 hx1 hmk
  have hy := ray_point_stays_out start_y dir_y m k hy0 hy1 hmk
  have hz := ray_point_stays_out start_z dir_z m k hz0 hz1 hmk
  unfold exits_at out_of_bounds at hm ⊢
  rcases hm with h | h | h | h | h | h
  · exact Or.inl (hx.1 h)
  · exact Or.inr (Or.inl (hx.2 h))
  · exact Or.inr (Or.inr (Or.inl (hy.1 h)))
  · exact Or.inr (Or.inr (Or.inr (Or.inl (hy.2 h))))
  · exact Or.inr (Or.inr (Or.inr (Or.inr (Or.inl (hz.1 h)))))
  · exact Or.inr (Or.inr (Or.inr (Or.inr (Or.inr (hz.2 h)))))

/-- Over the sphere field, for an origin inside the marcher's bounds, the sum of
the contributions up to the exit equals the sum over all `MAX_STEPS` steps. -/
theorem march_sum_sphere_full (start_x start_y start_z dir_x dir_y dir_z : α)
    (h : ¬ out_of_bounds start_x start_y start_z) :
    march_sum (sphere_volume : Volume α) start_x start_y start_z dir_x dir_y dir_z
        (exit_step start_x start_y start_z dir_x dir_y dir_z)
      = march_sum (sphere_volume : Volume α) start_x start_y start_z dir_x dir_y dir_z
          MAX_STEPS := by
  obtain ⟨_, h2, _, h4⟩ := exit_step_spec start_x start_y start_z dir_x dir_y dir_z
  rcases h4 with hex | ⟨heq, _⟩
  · unfold march_sum
    apply Finset.sum_subset
    · intro k hk
      rw [Finset.mem_range] at hk ⊢
      omega
    · intro k _ hk
      rw [Finset.mem_range, not_lt] at hk
      have hout := exits_at_mono start_x start_y start_z dir_x dir_y dir_z _ k h hk hex
      unfold exits_at at hout
      rw [sample_sphere_of_out_of_bounds _ _ _ hout, zero_mul]
  · rw [heq]

/-- C17: for the field produced by `initialize_volume`, every origin inside
`[0, N)^3` and every direction, the early exit of `ray_march` discards no
density: the result equals
`min(Σ_{k < 256} sample_volume(o + k * STEP_SIZE * d) * STEP_SIZE, 1)`, every
sample taken at or after an out-of-bounds position being 0. -/
theorem C17_early_exit_discards_nothing (start_x start_y start_z dir_x dir_y dir_z : α)
    (h : ¬ out_of_bounds start_x start_y start_z) :
    ray_march (sphere_volume : Volume α) start_x start_y start_z dir_x dir_y dir_z
        = min ((Finset.range MAX_STEPS).sum
            (fun k => sample_volume (sphere_volume : Volume α)
              (start_x + (k : α) * (dir_x * STEP_SIZE))
              (start_y + (k : α) * (dir_y * STEP_SIZE))
              (start_z + (k : α) * (dir_z * STEP_SIZE)) * STEP_SIZE)) 1
      ∧ (∀ k, exit_step start_x start_y start_z dir_x dir_y dir_z ≤ k →
          exit_step start_x start_y start_z dir_x dir_y dir_z < MAX_STEPS →
          sample_volume (sphere_volume : Volume α)
            (start_x + (k : α) * (dir_x * STEP_SIZE))
            (start_y + (k : α) * (dir_y * STEP_SIZE))
            (start_z + (k : α) * (dir_z * STEP_SIZE)) = 0) := by
  constructor
  · unfold ray_march
    rw [march_final_at_exit_step]
    simp only
    rw [march_sum_sphere_full _ _ _ _ _ _ h]
    simp only [march_sum, ray_point]
  · intro k hk hlt
    obtain ⟨_, _, _, h4⟩ := exit_step_spec start_x start_y start_z dir_x dir_y dir_z
    rcases h4 with hex | ⟨heq, _⟩
    · have hout := exits_at_mono start_x start_y start_z dir_x dir_y dir_z _ k h hk hex
      unfold exits_at ray_point at hout
      exact sample_sphere_of_out_of_bounds _ _ _ hout
    · omega

theorem C17_early_exit_discards_nothing_witness :
    ¬ out_of_bounds (1 / 2 : ℚ) (1 / 2) (1 / 4)
      ∧ ray_march (sphere_volume : Volume ℚ) (1 / 2) (1 / 2) (1 / 4) 0 0 (-1)
        = min ((Finset.range MAX_STEPS).sum
            (fun k => sample_volume (sphere_volume : Volume ℚ)
              ((1 / 2 : ℚ) + (k : ℚ) * (0 * STEP_SIZE))
              ((1 / 2 : ℚ) + (k : ℚ) * (0 * STEP_SIZE))
              ((1 / 4 : ℚ) + (k : ℚ) * (-1 * STEP_SIZE)) * STEP_SIZE)) 1 :=
  ⟨by unfold out_of_bounds; norm_num [VOLUME_SIZE],
    (C17_early_exit_discards_nothing (1 / 2 : ℚ) (1 / 2) (1 / 4) 0 0 (-1)
      (by unfold out_of_bounds; norm_num [VOLUME_SIZE])).1⟩

end Theorems

end VolumeRendering
